import Mathlib

/-!
# Verification of the UnblockMeSolver puzzle search engine

This file gives a shallow embedding of the two solver implementations in the
repository and proves/refutes the specified properties of the state-space
search engine.

The repository contains two implementations of the same sliding-block puzzle
solver:

* an OCaml implementation (the unnamed source file): blocks, a `board` record
  holding a 6×6 occupancy matrix plus a `_hashes` list, a multi-step move
  generator `findBlockMoves`, and a breadth-first `solveBoard` loop with a
  `visited` hash table and a `previousMoves` hash table keyed by
  `(board, level)`;
* a C++ implementation (`Unblock-solve-c++11.cc`): a `Board` holding only the
  occupancy array (compared by `memcmp`), single-tile moves, a
  `map<Board,Move>` with `insert` (first-writer-wins) and a `visited` set.

Machine integers of both sources are modelled as `Int` (OCaml `int`, C++
`int`; no arithmetic here approaches any word-size bound).  The 6×6 occupancy
matrix is modelled as a row-major `List tileKind` of length 36, matching the
C++ `TileKind _data[SIZE*SIZE]` layout (index `y*SIZE+x`); the OCaml 6×6
matrix is the same data in the same order.  Array reads and writes in the
sources are either explicitly bounds-guarded in the source itself
(`isEmptyTile`) or only ever executed with in-bounds coordinates; the
embedding's accessors `dataGet`/`dataSet` carry the bounds guard, returning
`Empty` / leaving the grid unchanged outside the grid.  Hash tables and
ordered maps are modelled as association lists: OCaml `Hashtbl.replace`
followed by first-match lookup is cons + first-match find; C++ `map::insert`
is insert-if-absent.  The search loops are modelled with an explicit fuel
parameter and a distinguished `OutOfFuel` marker; termination of the real
(unfueled) loop is then the theorem that a computable fuel bound never
returns the marker.
-/

/-- Tile occupancy kinds (`TileKind` in C++, `tileKind` in OCaml). -/
inductive tileKind where
  | Empty
  | Block
  | Prisoner
deriving DecidableEq, Inhabited

/-- The board is `g_boardSize × g_boardSize` tiles (`SIZE`/`g_boardSize` = 6). -/
def g_boardSize : Int := 6

/-- A puzzle piece (`struct Block` in C++, `type block` in OCaml): id,
top-left tile coordinates, orientation, kind, length in tiles. -/
structure block where
  _id : Int
  _y : Int
  _x : Int
  _isHorizontal : Bool
  _kind : tileKind
  _length : Int
deriving DecidableEq, Inhabited

/-- Read a tile of the row-major occupancy grid.  Both sources only ever read
in-bounds coordinates (the OCaml `isEmptyTile` guards its read explicitly);
out-of-bounds reads return `Empty` here. -/
def dataGet (d : List tileKind) (y x : Int) : tileKind :=
  if 0 ≤ y ∧ y < g_boardSize ∧ 0 ≤ x ∧ x < g_boardSize then
    d.getD (y * g_boardSize + x).toNat tileKind.Empty
  else tileKind.Empty

/-- Write a tile of the row-major occupancy grid.  Both sources only ever
write in-bounds coordinates when the block list is in bounds; out-of-bounds
writes leave the grid unchanged here. -/
def dataSet (d : List tileKind) (y x : Int) (k : tileKind) : List tileKind :=
  if 0 ≤ y ∧ y < g_boardSize ∧ 0 ≤ x ∧ x < g_boardSize then
    d.set (y * g_boardSize + x).toNat k
  else d

/-- The tiles occupied by a block, in the order the rendering loops write
them (`for i=0 to pred blk._length`, horizontal along the row, vertical down
the column). -/
def blockCells (blk : block) : List (Int × Int) :=
  if blk._isHorizontal then
    (List.range blk._length.toNat).map (fun (i : Nat) => (blk._y, blk._x + (i : Int)))
  else
    (List.range blk._length.toNat).map (fun (i : Nat) => (blk._y + (i : Int), blk._x))

/-- Render one block into the occupancy grid: write its kind at each of its
tiles (the inner loops of `renderBlocks` / `make_board`). -/
def writeBlock (d : List tileKind) (blk : block) : List tileKind :=
  (blockCells blk).foldl (fun acc c => dataSet acc c.1 c.2 blk._kind) d

/-- OCaml `hash_block`: `block._id lor (block._y lsl 8) lor (block._x lsl 16)`. -/
def hash_block (blk : block) : Int :=
  Int.lor blk._id (Int.lor (blk._y <<< (8 : Int)) (blk._x <<< (16 : Int)))

/-- The empty 6×6 grid (all tiles `Empty`). -/
def emptyData : List tileKind := List.replicate 36 tileKind.Empty

/-- OCaml `type board`: the occupancy matrix plus the `_hashes` list
accumulated from the blocks.  Hash-table equality on boards is structural
equality of this record. -/
structure board where
  _data : List tileKind
  _hashes : List Int
deriving DecidableEq, Inhabited

/-- OCaml `make_board`: start from the all-`Empty` grid and an empty hash
list; for each block (in list order) cons its `hash_block` onto `_hashes` and
write its footprint into `_data`. -/
def make_board (listOfBlocks : List block) : board :=
  listOfBlocks.foldl
    (fun brd blk =>
      { _data := writeBlock brd._data blk
        _hashes := hash_block blk :: brd._hashes })
    { _data := emptyData, _hashes := [] }

/-- Move directions (shared by the C++ `Move::Direction` enum and the OCaml
`direction` type). -/
inductive direction where
  | Left
  | Right
  | Up
  | Down
deriving DecidableEq, Inhabited

/-- OCaml `type move`: which block moved, how many tiles, which direction. -/
structure move where
  _blockId : Int
  _steps : Int
  _direction : direction
deriving DecidableEq, Inhabited

/-- OCaml `cropAtFirstFullTile`: keep the prefix of defined candidates,
stopping at the first `None` (the first full tile in that direction). -/
def cropAtFirstFullTile {α : Type} : List (Option α) → List α
  | [] => []
  | x :: xs =>
    match x with
    | none => []
    | some y => y :: cropAtFirstFullTile xs

/-- OCaml `tileToCheckCoord` (inside `findBlockMoves.isEmptyTile`):
the coordinate of the tile newly entered at offset `dv`,
for a block of the given length whose coordinate is `v`. -/
def tileToCheckCoord (len v dv : Int) : Int :=
  if dv = 0 then v
  else if dv < 0 then v + dv
  else v + len + dv - 1

/-- OCaml `isEmptyTile` (inside `findBlockMoves`): the tile entered at offset
`(dx, dy)` is inside the grid and empty. -/
def isEmptyTile (brd : board) (blk : block) (dx dy : Int) : Bool :=
  let tx := tileToCheckCoord blk._length blk._x dx
  let ty := tileToCheckCoord blk._length blk._y dy
  decide (0 ≤ tx ∧ tx < g_boardSize ∧ 0 ≤ ty ∧ ty < g_boardSize ∧
    dataGet brd._data ty tx = tileKind.Empty)

/-- OCaml `makeMove` (inside `findBlockMoves`): if the entered tile is empty,
produce the translated block and the move
(`steps = max (abs dx) (abs dy)`). -/
def makeMove (brd : board) (blk : block) (dx dy : Int) (dir : direction) :
    Option (block × move) :=
  if isEmptyTile brd blk dx dy then
    some ({ blk with _x := blk._x + dx, _y := blk._y + dy },
          { _blockId := blk._id, _steps := max |dx| |dy|, _direction := dir })
  else none

/-- The candidate distances `1 -- (g_boardSize-1)` = `[1, 2, 3, 4, 5]`. -/
def scanDistances : List Int := (List.range' 1 5).map (fun (n : Nat) => (n : Int))

/-- OCaml `findBlockMoves`: all moves of one block, scanning each direction
along the block's axis at distances 1..5 and cropping at the first full
tile, negative-direction (left/up) list first. -/
def findBlockMoves (brd : board) (blk : block) : List (block × move) :=
  if blk._isHorizontal then
    let leftMoves := cropAtFirstFullTile
      (scanDistances.map (fun distance => makeMove brd blk (-distance) 0 direction.Left))
    let rightMoves := cropAtFirstFullTile
      (scanDistances.map (fun distance => makeMove brd blk distance 0 direction.Right))
    leftMoves ++ rightMoves
  else
    let upMoves := cropAtFirstFullTile
      (scanDistances.map (fun distance => makeMove brd blk 0 (-distance) direction.Up))
    let downMoves := cropAtFirstFullTile
      (scanDistances.map (fun distance => makeMove brd blk 0 distance direction.Down))
    upMoves ++ downMoves

/-- The integer interval `[a, b]` as a list (the `for x = a to b` loop
range; empty when `b < a`). -/
def intRange (a b : Int) : List Int :=
  (List.range (b + 1 - a).toNat).map (fun (i : Nat) => a + (i : Int))

/-- The win scan shared by both sources: every tile of row `it._y` from
column `it._x + it._length` to the right edge is empty
(`allClear` accumulator loop). -/
def allClearData (d : List tileKind) (it : block) : Bool :=
  (intRange (it._x + it._length) (g_boardSize - 1)).all
    (fun x => decide (dataGet d it._y x = tileKind.Empty))

/-- OCaml win check on a `board` value. -/
def allClearOf (brd : board) (it : block) : Bool :=
  allClearData brd._data it

/-- Locate the prisoner block
(OCaml `List.find (fun blk -> blk._kind = Prisoner)`, C++ `find_if`). -/
def findPrisoner (blocks : List block) : Option block :=
  blocks.find? (fun blk => decide (blk._kind = tileKind.Prisoner))

/-- The dequeued state is winning: the prisoner is found and the row to its
right is all clear. -/
def isWinningState (blocks : List block) : Bool :=
  match findPrisoner blocks with
  | none => false
  | some it => allClearOf (make_board blocks) it

/-- The sentinel move marking the initial state
(`blockId = -1`; OCaml `dummyMove` has `_steps = 0`). -/
def dummyMove : move := { _blockId := -1, _steps := 0, _direction := direction.Left }

/-- First-match lookup in the OCaml `previousMoves` hash table
(modelled as an association list keyed by `(board, level)`). -/
def hashtblFind (prev : List ((board × Int) × move)) (key : board × Int) :
    Option move :=
  (prev.find? (fun e => decide (e.1 = key))).map (fun e => e.2)

/-- One inverse step of the OCaml backtracking loop: translate the block
named by the recorded move back against the move's direction by its step
count (`backStep` in `solveBoard`). -/
def backStepBlocks (blocks : List block) (itMove : move) : List block :=
  blocks.map (fun b =>
    if b._id = itMove._blockId then
      match itMove._direction with
      | direction.Left => { b with _x := b._x + itMove._steps }
      | direction.Right => { b with _x := b._x - itMove._steps }
      | direction.Up => { b with _y := b._y + itMove._steps }
      | direction.Down => { b with _y := b._y - itMove._steps }
    else b)

/-- The OCaml backtracking loop: starting from the winning state, repeatedly
look up `(currentBoard, currentLevel)` in `previousMoves`; stop at the
sentinel (`_blockId = -1`) or a missing key; otherwise apply the inverse of
the recorded move, push the predecessor snapshot, and descend one level.
`solution` accumulates the snapshots (the OCaml `Stack`, head = oldest once
finished); `moves` accumulates the recorded moves, ending in forward order.
The loop decreases `currentLevel` each iteration; it is run with fuel
`(level + 1).toNat`, which the level accounting makes sufficient. -/
def backtrack (prev : List ((board × Int) × move)) :
    Nat → board → List block → Int → List (List block) → List move →
    (List (List block) × List move)
  | 0, _, _, _, solution, moves => (solution, moves)
  | fuel + 1, currentBoard, currentBlocks, currentLevel, solution, moves =>
    match hashtblFind prev (currentBoard, currentLevel) with
    | none => (solution, moves)
    | some itMove =>
      if itMove._blockId = -1 then (solution, moves)
      else
        let backStep := backStepBlocks currentBlocks itMove
        backtrack prev fuel (make_board backStep) backStep (currentLevel - 1)
          (backStep :: solution) (itMove :: moves)

/-- Outcome of the OCaml `solveBoard`.  The source prints the snapshots and
exits on success, runs off the `while` loop on exhaustion, and raises
`Not_found` if a dequeued state has no prisoner; `OutOfFuel` is the fuel
marker of the embedding, not a program outcome. -/
inductive SolveResult where
  | Solved (path : List (List block)) (moves : List move)
  | NoSolution
  | NoPrisoner
  | OutOfFuel
deriving DecidableEq, Inhabited

/-- The expansion step of the OCaml `solveBoard`: for each block index, for
each move from `findBlockMoves`, replace that block, and enqueue the child at
`level + 1` unless its board is already in `visited`. -/
def expandChildren (visited : List board) (brd : board) (blocks : List block)
    (level : Int) : List (Int × move × List block) :=
  (List.range blocks.length).flatMap (fun i =>
    (findBlockMoves brd (blocks.getD i default)).filterMap (fun bm =>
      let newListOfBlocks := blocks.set i bm.1
      let newBoard := make_board newListOfBlocks
      if newBoard ∈ visited then none
      else some (level + 1, bm.2, newListOfBlocks)))

/-- The OCaml `solveBoard` BFS loop.  Queue entries are
`(level, move, blocks)`.  On dequeue: skip if the board is visited;
otherwise mark visited, record `(board, level) ↦ move` in `previousMoves`
(`Hashtbl.replace`; keys are written at most once, so cons + first-match
lookup is faithful), run the win check, and either backtrack and return the
solution or append all children to the queue. -/
def solveLoop : Nat → List ((board × Int) × move) → List board →
    List (Int × move × List block) → SolveResult
  | 0, _, _, _ => SolveResult.OutOfFuel
  | fuel + 1, previousMoves, visited, queue =>
    match queue with
    | [] => SolveResult.NoSolution
    | (level, mv, blocks) :: rest =>
      let brd := make_board blocks
      if brd ∈ visited then
        solveLoop fuel previousMoves visited rest
      else
        let visited' := brd :: visited
        let previousMoves' := ((brd, level), mv) :: previousMoves
        match findPrisoner blocks with
        | none => SolveResult.NoPrisoner
        | some it =>
          if allClearOf brd it then
            let bt := backtrack previousMoves' (level + 1).toNat brd blocks level
              [blocks] []
            SolveResult.Solved bt.1 bt.2
          else
            solveLoop fuel previousMoves' visited'
              (rest ++ expandChildren visited' brd blocks level)

/-- The OCaml `solveBoard` entry point: sentinel binding
`(initial board, 0) ↦ dummyMove` and initial queue entry
`(1, dummyMove, listOfBlocks)`. -/
def solveBoard (fuel : Nat) (listOfBlocks : List block) : SolveResult :=
  solveLoop fuel [((make_board listOfBlocks, 0), dummyMove)] []
    [(1, dummyMove, listOfBlocks)]

/-- C++ `struct Board`: only the occupancy array `TileKind _data[SIZE*SIZE]`
(row-major, index `y*SIZE+x`).  Used as set/map key via `operator<`
(a `memcmp` of `_data`), whose induced equivalence is structural equality. -/
structure Board where
  _data : List tileKind
deriving DecidableEq, Inhabited

/-- The byte value of a tile in the C++ enum (`empty=0, block=1, prisoner=2`),
as compared by `memcmp`. -/
def tileByte : tileKind → Nat
  | tileKind.Empty => 0
  | tileKind.Block => 1
  | tileKind.Prisoner => 2

/-- `memcmp`-style lexicographic strict order on occupancy buffers. -/
def memcmpLt : List tileKind → List tileKind → Bool
  | [], [] => false
  | [], _ :: _ => true
  | _ :: _, [] => false
  | x :: xs, y :: ys =>
    if tileByte x < tileByte y then true
    else if tileByte y < tileByte x then false
    else memcmpLt xs ys

/-- C++ `Board::operator<`: `memcmp(_data, r._data, sizeof(_data)) < 0`. -/
def Board.lt (a b : Board) : Bool := memcmpLt a._data b._data

/-- C++ `renderBlocks`: render a block list into a fresh all-empty `Board`. -/
def renderBlocks (blocks : List block) : Board :=
  { _data := blocks.foldl (fun d p => writeBlock d p) emptyData }

/-- C++ `struct Move`: which block moved and in which direction
(always a single tile). -/
structure Move where
  _blockId : Int
  _move : direction
deriving DecidableEq, Inhabited

/-- Membership test of the C++ `map<Board, Move>` (association list model). -/
def mapMem (m : List (Board × Move)) (b : Board) : Bool :=
  m.any (fun e => decide (e.1 = b))

/-- Lookup in the C++ `map<Board, Move>`. -/
def mapFind (m : List (Board × Move)) (b : Board) : Option Move :=
  (m.find? (fun e => decide (e.1 = b))).map (fun e => e.2)

/-- C++ `map::insert`: a no-op when the key is already present
(first-writer-wins). -/
def mapInsert (m : List (Board × Move)) (b : Board) (mv : Move) :
    List (Board × Move) :=
  if mapMem m b then m else m ++ [(b, mv)]

/-- The single-step move candidates of one block in the C++ `SolveBoard`
expansion: left/right (or up/down) by one tile when the boundary check and
the adjacent-tile emptiness check pass, left (resp. up) first. -/
def cppBlockChildren (brd : Board) (blocks : List block) (i : Nat) :
    List (Move × List block) :=
  let blk := blocks.getD i default
  if blk._isHorizontal then
    (if blk._x > 0 ∧ dataGet brd._data blk._y (blk._x - 1) = tileKind.Empty then
      [({ _blockId := blk._id, _move := direction.Left },
        blocks.set i { blk with _x := blk._x - 1 })]
    else []) ++
    (if blk._x + blk._length < g_boardSize ∧
        dataGet brd._data blk._y (blk._x + blk._length) = tileKind.Empty then
      [({ _blockId := blk._id, _move := direction.Right },
        blocks.set i { blk with _x := blk._x + 1 })]
    else [])
  else
    (if blk._y > 0 ∧ dataGet brd._data (blk._y - 1) blk._x = tileKind.Empty then
      [({ _blockId := blk._id, _move := direction.Up },
        blocks.set i { blk with _y := blk._y - 1 })]
    else []) ++
    (if blk._y + blk._length < g_boardSize ∧
        dataGet brd._data (blk._y + blk._length) blk._x = tileKind.Empty then
      [({ _blockId := blk._id, _move := direction.Down },
        blocks.set i { blk with _y := blk._y + 1 })]
    else [])

/-- All single-step children of a state in the C++ `SolveBoard` expansion,
in block order. -/
def cppChildren (brd : Board) (blocks : List block) : List (Move × List block) :=
  (List.range blocks.length).flatMap (fun i => cppBlockChildren brd blocks i)

/-- The enqueue-and-record step of the C++ expansion: each child is pushed at
the back of the queue unconditionally, and `(renderBlocks child, move)` is
inserted into `previousMoves` (`map::insert`, no-op if present). -/
def cppEnqueue (prev : List (Board × Move)) (queue : List (List block))
    (children : List (Move × List block)) :
    List (Board × Move) × List (List block) :=
  children.foldl
    (fun acc c => (mapInsert acc.1 (renderBlocks c.2) c.1, acc.2 ++ [c.2]))
    (prev, queue)

/-- One inverse step of the C++ backtracking loop: shift the first block
whose id matches the recorded move by one tile against the move's
direction. -/
def cppBackStep : List block → Move → List block
  | [], _ => []
  | b :: bs, m =>
    if b._id = m._blockId then
      (match m._move with
       | direction.Left => { b with _x := b._x + 1 }
       | direction.Right => { b with _x := b._x - 1 }
       | direction.Up => { b with _y := b._y + 1 }
       | direction.Down => { b with _y := b._y - 1 }) :: bs
    else b :: cppBackStep bs m

/-- The C++ backtracking loop: look up the current board in `previousMoves`;
stop at a missing key or the sentinel; otherwise apply the recorded move in
reverse and push the predecessor snapshot at the front. -/
def cppBacktrack (prev : List (Board × Move)) :
    Nat → List block → List (List block) → List (List block)
  | 0, _, solution => solution
  | fuel + 1, blocks, solution =>
    match mapFind prev (renderBlocks blocks) with
    | none => solution
    | some m =>
      if m._blockId = -1 then solution
      else
        let blocks' := cppBackStep blocks m
        cppBacktrack prev fuel blocks' (blocks' :: solution)

/-- Outcome of the C++ `SolveBoard` (prints and exits on success; returns on
queue exhaustion; the prisoner `assert` fires on a state with no prisoner;
`OutOfFuel` is the fuel marker of the embedding). -/
inductive CppResult where
  | Solved (path : List (List block))
  | NoSolution
  | NoPrisoner
  | OutOfFuel
deriving DecidableEq, Inhabited

/-- The C++ `SolveBoard` BFS loop, instrumented with a `trace` accumulator
that records (newest first) each board actually expanded (i.e. dequeued while
not yet visited).  The trace is proof instrumentation only; the result
component coincides with `SolveBoardLoop` below. -/
def SolveBoardLoopT : Nat → List (Board × Move) → List Board →
    List (List block) → List Board → List Board × CppResult
  | 0, _, _, _, trace => (trace, CppResult.OutOfFuel)
  | fuel + 1, prev, visited, queue, trace =>
    match queue with
    | [] => (trace, CppResult.NoSolution)
    | blocks :: rest =>
      let brd := renderBlocks blocks
      if brd ∈ visited then
        SolveBoardLoopT fuel prev visited rest trace
      else
        let visited' := brd :: visited
        match findPrisoner blocks with
        | none => (brd :: trace, CppResult.NoPrisoner)
        | some it =>
          if allClearData brd._data it then
            (brd :: trace, CppResult.Solved (cppBacktrack prev fuel blocks [blocks]))
          else
            let pq := cppEnqueue prev rest (cppChildren brd blocks)
            SolveBoardLoopT fuel pq.1 visited' pq.2 (brd :: trace)

/-- The C++ `SolveBoard` BFS loop: dequeue, skip if visited, else mark
visited, win-check (backtracking out the solution on success), else enqueue
all single-step children and record their first-arrival moves. -/
def SolveBoardLoop : Nat → List (Board × Move) → List Board →
    List (List block) → CppResult
  | 0, _, _, _ => CppResult.OutOfFuel
  | fuel + 1, prev, visited, queue =>
    match queue with
    | [] => CppResult.NoSolution
    | blocks :: rest =>
      let brd := renderBlocks blocks
      if brd ∈ visited then
        SolveBoardLoop fuel prev visited rest
      else
        let visited' := brd :: visited
        match findPrisoner blocks with
        | none => CppResult.NoPrisoner
        | some it =>
          if allClearData brd._data it then
            CppResult.Solved (cppBacktrack prev fuel blocks [blocks])
          else
            let pq := cppEnqueue prev rest (cppChildren brd blocks)
            SolveBoardLoop fuel pq.1 visited' pq.2

/-- The C++ `SolveBoard` entry point: the sentinel
`(renderBlocks blocks, Move(-1, left))` is inserted into `previousMoves` and
the initial block list is the only queue entry. -/
def SolveBoard (fuel : Nat) (blocks : List block) : CppResult :=
  SolveBoardLoop fuel
    (mapInsert [] (renderBlocks blocks) { _blockId := -1, _move := direction.Left })
    [] [blocks]

/-- The tiles a move slides over, from the tile adjacent to the block's
footprint on the moving side out to the last tile of the destination
footprint: for a length-`L` block at column `x` moving right by `s` these are
columns `x+L` .. `x+L+s-1` of its row, and symmetrically for the other three
directions.  (The tiles between the pre-move footprint and the destination
footprint, in the spec's words.) -/
def slidePath (blk : block) (mv : move) : List (Int × Int) :=
  (intRange 1 mv._steps).map (fun j =>
    match mv._direction with
    | direction.Left => (blk._y, blk._x - j)
    | direction.Right => (blk._y, blk._x + blk._length + j - 1)
    | direction.Up => (blk._y - j, blk._x)
    | direction.Down => (blk._y + blk._length + j - 1, blk._x))

/-- Fixture: a lone horizontal prisoner with its row clear to the right
(spec Scenario A). -/
def prisonerFree : block :=
  { _id := 0, _y := 2, _x := 4, _isHorizontal := true
    _kind := tileKind.Prisoner, _length := 2 }

/-- Fixture: a horizontal prisoner at (2,3)..(2,4) (spec Scenario C). -/
def prisonerC : block :=
  { _id := 0, _y := 2, _x := 3, _isHorizontal := true
    _kind := tileKind.Prisoner, _length := 2 }

/-- Fixture: a vertical blocker at (1,5)..(2,5) that can slide one step up to
clear the prisoner's row (spec Scenario C). -/
def blockerC : block :=
  { _id := 1, _y := 1, _x := 5, _isHorizontal := false
    _kind := tileKind.Block, _length := 2 }

/-- Fixture: an ordinary horizontal block at (0,0)..(0,1). -/
def blockA : block :=
  { _id := 0, _y := 0, _x := 0, _isHorizontal := true
    _kind := tileKind.Block, _length := 2 }

/-- Fixture: an ordinary horizontal block at (1,0)..(1,1), disjoint from
`blockA`. -/
def blockB : block :=
  { _id := 1, _y := 1, _x := 0, _isHorizontal := true
    _kind := tileKind.Block, _length := 2 }

/-- Fixture: an ordinary block fully overlapping `prisonerFree`
(same footprint (2,4)..(2,5)). -/
def overlapBlock : block :=
  { _id := 1, _y := 2, _x := 4, _isHorizontal := true
    _kind := tileKind.Block, _length := 2 }

/-- Fixture: an ordinary block overlapping `prisonerFree` at tile (2,5) only,
parameterised by its id (used to show no validation happens whatever the
blocks' identities are). -/
def overlapBlockId (n : Int) : block :=
  { _id := n, _y := 2, _x := 5, _isHorizontal := false
    _kind := tileKind.Block, _length := 1 }


/-- A grid cell lies inside the 6×6 board. -/
def inBoundsCell (c : Int × Int) : Prop :=
  0 ≤ c.1 ∧ c.1 < g_boardSize ∧ 0 ≤ c.2 ∧ c.2 < g_boardSize

instance (c : Int × Int) : Decidable (inBoundsCell c) := by
  unfold inBoundsCell
  infer_instance

/-- All tiles of a block lie inside the board. -/
def blockInBounds (blk : block) : Prop :=
  ∀ c ∈ blockCells blk, inBoundsCell c

instance (blk : block) : Decidable (blockInBounds blk) := by
  unfold blockInBounds
  infer_instance

/-- Two blocks occupy no common tile. -/
def disjointCells (a b : block) : Prop :=
  ∀ c ∈ blockCells a, c ∉ blockCells b

instance (a b : block) : Decidable (disjointCells a b) := by
  unfold disjointCells
  infer_instance

/-- The board invariant of the data model: every block's tiles are inside the
grid, every block has a real kind and positive length, and no two blocks
occupy the same tile. -/
def validConfig (blocks : List block) : Prop :=
  (∀ blk ∈ blocks, blockInBounds blk ∧ blk._kind ≠ tileKind.Empty ∧
    1 ≤ blk._length) ∧
  blocks.Pairwise disjointCells

instance (blocks : List block) : Decidable (validConfig blocks) := by
  unfold validConfig
  infer_instance

/-- Block identities as the solver relies on them: distinct, and small enough
(the ids are a 0-based process counter) that `hash_block`'s bit fields do not
overlap. -/
def idsValid (blocks : List block) : Prop :=
  (blocks.map (fun blk => blk._id)).Nodup ∧
  ∀ blk ∈ blocks, 0 ≤ blk._id ∧ blk._id < 256

instance (blocks : List block) : Decidable (idsValid blocks) := by
  unfold idsValid
  infer_instance

/-- Some block of the list is a prisoner (the input contract both solvers
rely on at their win check). -/
def hasPrisoner (blocks : List block) : Prop :=
  ∃ blk ∈ blocks, blk._kind = tileKind.Prisoner

instance (blocks : List block) : Decidable (hasPrisoner blocks) := by
  unfold hasPrisoner
  infer_instance

/-- Fixture: the prisoner of the jammed board, at (2,0)..(2,1). -/
def jamPrisoner : block :=
  { _id := 0, _y := 2, _x := 0, _isHorizontal := true
    _kind := tileKind.Prisoner, _length := 2 }

/-- Fixture: the filler occupying the rest of the prisoner row,
(2,2)..(2,5). -/
def jamRowFill : block :=
  { _id := 1, _y := 2, _x := 2, _isHorizontal := true
    _kind := tileKind.Block, _length := 4 }

/-- Fixture: a full-width horizontal block filling row `r`. -/
def fullRow (idv r : Int) : block :=
  { _id := idv, _y := r, _x := 0, _isHorizontal := true
    _kind := tileKind.Block, _length := 6 }

/-- Fixture: a completely jammed board (every tile occupied, so no block can
move and the prisoner row is blocked) containing a block pair that overlaps
at tile (2,5), with the overlapping block's id left free. -/
def jammedOverlapCfg (n : Int) : List block :=
  [jamPrisoner, jamRowFill, fullRow 2 0, fullRow 3 1, fullRow 4 3,
   fullRow 5 4, fullRow 6 5, overlapBlockId n]

/-- One search transition: some block of the state is replaced by one of the
positions the move generator yields for it (the state change a queue child
embodies, independent of the visited filter). -/
def stepRel (blocks blocks' : List block) : Prop :=
  ∃ i : Nat, i < blocks.length ∧
    ∃ bm ∈ findBlockMoves (make_board blocks) (blocks.getD i default),
      blocks' = blocks.set i bm.1

/-- Reachability in exactly `n` generated moves. -/
def reachIn : Nat → List block → List block → Prop
  | 0, b, b2 => b2 = b
  | n + 1, b, b2 => ∃ c, reachIn n b c ∧ stepRel c b2

/-- Two blocks agree on everything except their position. -/
def sameSkeleton (a b : block) : Prop :=
  a._id = b._id ∧ a._isHorizontal = b._isHorizontal ∧
  a._kind = b._kind ∧ a._length = b._length

/-- `l2` is `l1` with each block possibly moved: same length, and pointwise
the same id, orientation, kind and length. -/
def repositioning (l1 l2 : List block) : Prop :=
  List.Forall₂ sameSkeleton l1 l2

/-- Forward application of a recorded move: translate the block(s) named by
the move by its step count in its direction (the exact inverse of the
backtracking loop's `backStep`). -/
def applyMove (blocks : List block) (mv : move) : List block :=
  blocks.map (fun b =>
    if b._id = mv._blockId then
      match mv._direction with
      | direction.Left => { b with _x := b._x - mv._steps }
      | direction.Right => { b with _x := b._x + mv._steps }
      | direction.Up => { b with _y := b._y - mv._steps }
      | direction.Down => { b with _y := b._y + mv._steps }
    else b)

/-- The snapshots/moves consistency of a solution path, as the spec describes
it: consecutive snapshots are joined by applying the corresponding move, and
each such transition is a legal generated move. -/
def chainFrom : List (List block) → List move → Prop
  | [_], [] => True
  | s :: s2 :: tl, m :: ms =>
      applyMove s m = s2 ∧ stepRel s s2 ∧ chainFrom (s2 :: tl) ms
  | _, _ => False

/-- A repositioning of `init` given by an explicit in-grid position for each
index. -/
def repositionAt (init : List block) (f : Fin init.length → Fin 6 × Fin 6) :
    List block :=
  List.ofFn (fun j => { init.get j with
                          _y := (((f j).1 : Nat) : Int)
                          _x := (((f j).2 : Nat) : Int) })

/-- The (finite) set of boards of all in-grid repositionings of `init`:
every board the search can ever construct from a valid start lives here. -/
def candidateBoards (init : List block) : Finset board :=
  Finset.image (fun f => make_board (repositionAt init f)) Finset.univ

/-- The loop measure: boards not yet visited (weighted by the maximal number
of queue pushes one expansion can make) plus the queue length. -/
def loopMeasure (init : List block) (visited : List board)
    (queue : List (Int × move × List block)) : Nat :=
  ((candidateBoards init).card -
      ((candidateBoards init).filter (fun b => b ∈ visited)).card) *
    (10 * init.length + 1) + queue.length

/-- A queue entry is well formed: a valid in-grid repositioning of the
initial list, reachable in exactly `level - 1` generated moves. -/
def entryOK (init : List block) (e : Int × move × List block) : Prop :=
  validConfig e.2.2 ∧ repositioning init e.2.2 ∧ 1 ≤ e.1 ∧
  reachIn (e.1 - 1).toNat init e.2.2

/-- Provenance of a queue entry: it is the initial entry, or it was produced
by expanding a parent state recorded in `previousMoves` one level below. -/
def entryProv (init : List block) (prev : List ((board × Int) × move))
    (e : Int × move × List block) : Prop :=
  e = (1, dummyMove, init) ∨
  (2 ≤ e.1 ∧ ∃ p : List block, ∃ i : Nat, ∃ bm : block × move,
    validConfig p ∧ repositioning init p ∧
    (∃ mv2 : move, ((make_board p, e.1 - 1), mv2) ∈ prev) ∧
    i < p.length ∧ bm ∈ findBlockMoves (make_board p) (p.getD i default) ∧
    e.2.2 = p.set i bm.1 ∧ e.2.1 = bm.2)

/-- Provenance of one `previousMoves` binding: the level-0 sentinel, the
initial state's own binding, or a binding produced when a child of a
recorded parent was first visited. -/
def prevEntryChain (init : List block) (prev : List ((board × Int) × move))
    (en : (board × Int) × move) : Prop :=
  (en.1.1 = make_board init ∧ en.1.2 = 0 ∧ en.2 = dummyMove) ∨
  (∃ bl : List block, en.1.1 = make_board bl ∧ validConfig bl ∧
    repositioning init bl ∧
    ((en.2 = dummyMove ∧ bl = init ∧ en.1.2 = 1) ∨
     (2 ≤ en.1.2 ∧ ∃ p : List block, ∃ i : Nat, ∃ bm : block × move,
       validConfig p ∧ repositioning init p ∧
       (∃ mv2 : move, ((make_board p, en.1.2 - 1), mv2) ∈ prev) ∧
       i < p.length ∧ bm ∈ findBlockMoves (make_board p) (p.getD i default) ∧
       bl = p.set i bm.1 ∧ en.2 = bm.2)))

/-- All `previousMoves` bindings have sound provenance. -/
def prevChain (init : List block) (prev : List ((board × Int) × move)) : Prop :=
  ∀ en ∈ prev, prevEntryChain init prev en

/-- What the search knows about a visited board: it is the board of a unique
valid repositioning `bl`, first reached (and expanded, non-winning) at level
`ℓb`, optimal in the sense that no shorter move sequence reaches this board,
and all of `bl`'s children are either visited or still queued no deeper than
one level below `ℓb`. -/
def visitedOK (init : List block) (visited : List board)
    (queue : List (Int × move × List block)) (b : board) : Prop :=
  ∃ ℓb : Int, ∃ bl : List block,
    b = make_board bl ∧ validConfig bl ∧ repositioning init bl ∧
    1 ≤ ℓb ∧ reachIn (ℓb - 1).toNat init bl ∧
    isWinningState bl = false ∧
    (∀ (n : Nat) (bl2 : List block), repositioning init bl2 →
      validConfig bl2 → make_board bl2 = b → reachIn n init bl2 →
      ℓb - 1 ≤ (n : Int)) ∧
    (∀ c : List block, stepRel bl c →
      make_board c ∈ visited ∨ ∃ e ∈ queue, e.2.2 = c ∧ e.1 ≤ ℓb + 1) ∧
    (∀ f ∈ queue.head?, ℓb ≤ f.1)

/-- The breadth-first loop invariant tying together the queue, the visited
set and the `previousMoves` table. -/
structure LoopInv (init : List block) (prev : List ((board × Int) × move))
    (visited : List board) (queue : List (Int × move × List block)) : Prop where
  qok : ∀ e ∈ queue, entryOK init e
  qprov : ∀ e ∈ queue, entryProv init prev e
  lvlSorted : List.Pairwise (fun a b : Int × move × List block => a.1 ≤ b.1) queue
  span : ∀ f ∈ queue.head?, ∀ e ∈ queue, e.1 ≤ f.1 + 1
  vok : ∀ b ∈ visited, visitedOK init visited queue b
  pchain : prevChain init prev
  pkv : ∀ en ∈ prev, en.1.1 ∈ visited ∨ en.1.2 = 0
  pkeys : (prev.map (fun en => en.1)).Nodup
  initCovered : make_board init ∈ visited ∨ (1, dummyMove, init) ∈ queue

/-! ## Basic lemmas about the scan ranges and the crop operation -/

lemma mem_intRange {a b x : Int} : x ∈ intRange a b ↔ a ≤ x ∧ x ≤ b := by
  unfold intRange
  rw [List.mem_map]
  constructor
  · rintro ⟨i, hi, rfl⟩
    rw [List.mem_range] at hi
    omega
  · intro h
    exact ⟨(x - a).toNat, List.mem_range.2 (by omega), by omega⟩

lemma mem_cropAtFirstFullTile {α : Type} (l : List (Option α)) (x : α) :
    x ∈ cropAtFirstFullTile l ↔
      ∃ n : Nat, l[n]? = some (some x) ∧
        ∀ j : Nat, j ≤ n → ∃ y : α, l[j]? = some (some y) := by
  induction l with
  | nil => simp [cropAtFirstFullTile]
  | cons hd tl ih =>
    cases hd with
    | none =>
      simp only [cropAtFirstFullTile, List.not_mem_nil, false_iff, not_exists]
      rintro n ⟨h1, h2⟩
      obtain ⟨y, hy⟩ := h2 0 (Nat.zero_le n)
      simp at hy
    | some a =>
      simp only [cropAtFirstFullTile, List.mem_cons]
      constructor
      · rintro (rfl | hx)
        · refine ⟨0, by simp, fun j hj => ?_⟩
          interval_cases j
          exact ⟨x, by simp⟩
        · obtain ⟨n, h1, h2⟩ := ih.1 hx
          refine ⟨n + 1, by simpa using h1, fun j hj => ?_⟩
          cases j with
          | zero => exact ⟨a, by simp⟩
          | succ k =>
            obtain ⟨y, hy⟩ := h2 k (Nat.le_of_succ_le_succ hj)
            exact ⟨y, by simpa using hy⟩
      · rintro ⟨n, h1, h2⟩
        cases n with
        | zero =>
          left
          simp only [List.getElem?_cons_zero, Option.some.injEq] at h1
          exact h1.symm
        | succ m =>
          right
          refine ih.2 ⟨m, by simpa using h1, fun j hj => ?_⟩
          obtain ⟨y, hy⟩ := h2 (j + 1) (Nat.succ_le_succ hj)
          exact ⟨y, by simpa using hy⟩

lemma mem_crop_map_range' {α : Type} (f : Nat → Option α) (x : α) :
    ∀ (k a : Nat),
      (x ∈ cropAtFirstFullTile ((List.range' a k).map f) ↔
        ∃ d : Nat, a ≤ d ∧ d < a + k ∧ f d = some x ∧
          ∀ e : Nat, a ≤ e → e ≤ d → (f e).isSome = true) := by
  intro k
  induction k with
  | zero =>
    intro a
    simp only [List.range'_zero, List.map_nil, cropAtFirstFullTile,
      List.not_mem_nil, false_iff, not_exists]
    rintro d ⟨h1, h2, _⟩
    omega
  | succ m ih =>
    intro a
    rw [List.range'_succ, List.map_cons]
    cases hfa : f a with
    | none =>
      simp only [cropAtFirstFullTile, List.not_mem_nil, false_iff, not_exists]
      rintro d ⟨had, _, _, hall⟩
      have := hall a le_rfl had
      rw [hfa] at this
      simp at this
    | some b =>
      simp only [cropAtFirstFullTile, List.mem_cons]
      rw [ih (a + 1)]
      constructor
      · rintro (rfl | ⟨d, hd1, hd2, hfd, hall⟩)
        · refine ⟨a, le_rfl, by omega, hfa, fun e he1 he2 => ?_⟩
          have : e = a := by omega
          subst this
          rw [hfa]; rfl
        · refine ⟨d, by omega, by omega, hfd, fun e he1 he2 => ?_⟩
          rcases Nat.eq_or_lt_of_le he1 with rfl | h
          · rw [hfa]; rfl
          · exact hall e h he2
      · rintro ⟨d, hd1, hd2, hfd, hall⟩
        rcases Nat.eq_or_lt_of_le hd1 with rfl | h
        · left
          rw [hfa] at hfd
          exact ((Option.some.injEq b x ▸ hfd : b = x)).symm
        · right
          exact ⟨d, h, by omega, hfd, fun e he1 he2 => hall e (by omega) he2⟩

lemma mem_crop_scanDistances {α : Type} (g : Int → Option α) (x : α) :
    x ∈ cropAtFirstFullTile (scanDistances.map g) ↔
      ∃ d : Int, 1 ≤ d ∧ d ≤ 5 ∧ g d = some x ∧
        ∀ e : Int, 1 ≤ e → e ≤ d → (g e).isSome = true := by
  have hmm : scanDistances.map g = (List.range' 1 5).map (fun (n : Nat) => g (n : Int)) := by
    unfold scanDistances
    rw [List.map_map]
    rfl
  rw [hmm, mem_crop_map_range' (fun (n : Nat) => g (n : Int)) x 5 1]
  constructor
  · rintro ⟨d, hd1, hd5, hfd, hall⟩
    refine ⟨(d : Int), by omega, by omega, hfd, fun e he1 he2 => ?_⟩
    have he : e = ((e.toNat : Nat) : Int) := by omega
    rw [he]
    exact hall e.toNat (by omega) (by omega)
  · rintro ⟨d, hd1, hd5, hfd, hall⟩
    refine ⟨d.toNat, by omega, by omega, ?_, fun e he1 he2 => ?_⟩
    · have hdd : ((d.toNat : Nat) : Int) = d := by omega
      rw [hdd]
      exact hfd
    · exact hall (e : Int) (by omega) (by omega)

/-! ## Characterising the move generator -/

lemma makeMove_eq_some {brd : board} {blk : block} {dx dy : Int} {dir : direction}
    {p : block × move} :
    makeMove brd blk dx dy dir = some p ↔
      isEmptyTile brd blk dx dy = true ∧
      p = ({ blk with _x := blk._x + dx, _y := blk._y + dy },
           { _blockId := blk._id, _steps := max |dx| |dy|, _direction := dir }) := by
  by_cases h : isEmptyTile brd blk dx dy <;> simp [makeMove, h, eq_comm]

lemma makeMove_isSome {brd : board} {blk : block} {dx dy : Int} {dir : direction} :
    (makeMove brd blk dx dy dir).isSome = true ↔ isEmptyTile brd blk dx dy = true := by
  by_cases h : isEmptyTile brd blk dx dy <;> simp [makeMove, h]

lemma isEmptyTile_left {brd : board} {blk : block} {d : Int} (hd : 1 ≤ d) :
    (isEmptyTile brd blk (-d) 0 = true ↔
      (0 ≤ blk._x - d ∧ blk._x - d < g_boardSize ∧
       0 ≤ blk._y ∧ blk._y < g_boardSize ∧
       dataGet brd._data blk._y (blk._x - d) = tileKind.Empty)) := by
  unfold isEmptyTile tileToCheckCoord
  have h1 : ¬(-d = 0) := by omega
  have h2 : -d < 0 := by omega
  rw [if_neg h1, if_pos h2, if_pos rfl]
  rw [sub_eq_add_neg]
  simp [decide_eq_true_eq]

lemma isEmptyTile_right {brd : board} {blk : block} {d : Int} (hd : 1 ≤ d) :
    (isEmptyTile brd blk d 0 = true ↔
      (0 ≤ blk._x + blk._length + d - 1 ∧ blk._x + blk._length + d - 1 < g_boardSize ∧
       0 ≤ blk._y ∧ blk._y < g_boardSize ∧
       dataGet brd._data blk._y (blk._x + blk._length + d - 1) = tileKind.Empty)) := by
  unfold isEmptyTile tileToCheckCoord
  have h1 : ¬(d = 0) := by omega
  have h2 : ¬(d < 0) := by omega
  rw [if_neg h1, if_neg h2, if_pos rfl]
  simp [decide_eq_true_eq]

lemma isEmptyTile_up {brd : board} {blk : block} {d : Int} (hd : 1 ≤ d) :
    (isEmptyTile brd blk 0 (-d) = true ↔
      (0 ≤ blk._x ∧ blk._x < g_boardSize ∧
       0 ≤ blk._y - d ∧ blk._y - d < g_boardSize ∧
       dataGet brd._data (blk._y - d) blk._x = tileKind.Empty)) := by
  unfold isEmptyTile tileToCheckCoord
  have h1 : ¬(-d = 0) := by omega
  have h2 : -d < 0 := by omega
  rw [if_pos rfl, if_neg h1, if_pos h2]
  rw [sub_eq_add_neg]
  simp [decide_eq_true_eq]

lemma isEmptyTile_down {brd : board} {blk : block} {d : Int} (hd : 1 ≤ d) :
    (isEmptyTile brd blk 0 d = true ↔
      (0 ≤ blk._x ∧ blk._x < g_boardSize ∧
       0 ≤ blk._y + blk._length + d - 1 ∧ blk._y + blk._length + d - 1 < g_boardSize ∧
       dataGet brd._data (blk._y + blk._length + d - 1) blk._x = tileKind.Empty)) := by
  unfold isEmptyTile tileToCheckCoord
  have h1 : ¬(d = 0) := by omega
  have h2 : ¬(d < 0) := by omega
  rw [if_pos rfl, if_neg h1, if_neg h2]
  simp [decide_eq_true_eq]

lemma max_abs_pos {d : Int} (hd : 1 ≤ d) : max |(-d)| |(0 : Int)| = d := by
  rw [abs_neg, abs_of_nonneg (by omega : (0:Int) ≤ d)]
  simp
  omega

lemma max_abs_pos' {d : Int} (hd : 1 ≤ d) : max |(0 : Int)| |(-d)| = d := by
  rw [abs_neg, abs_of_nonneg (by omega : (0:Int) ≤ d)]
  simp
  omega

lemma max_abs_pos2 {d : Int} (hd : 1 ≤ d) : max |d| |(0 : Int)| = d := by
  rw [abs_of_nonneg (by omega : (0:Int) ≤ d)]
  simp
  omega

lemma max_abs_pos2' {d : Int} (hd : 1 ≤ d) : max |(0 : Int)| |d| = d := by
  rw [abs_of_nonneg (by omega : (0:Int) ≤ d)]
  simp
  omega


/-- For a horizontal block, `findBlockMoves` is the cropped left scan
followed by the cropped right scan. -/
lemma findBlockMoves_horiz {brd : board} {blk : block} {p : block × move}
    (hh : blk._isHorizontal = true) :
    p ∈ findBlockMoves brd blk ↔
      ((∃ d : Int, 1 ≤ d ∧ d ≤ 5 ∧
          makeMove brd blk (-d) 0 direction.Left = some p ∧
          ∀ e : Int, 1 ≤ e → e ≤ d →
            (makeMove brd blk (-e) 0 direction.Left).isSome = true) ∨
       (∃ d : Int, 1 ≤ d ∧ d ≤ 5 ∧
          makeMove brd blk d 0 direction.Right = some p ∧
          ∀ e : Int, 1 ≤ e → e ≤ d →
            (makeMove brd blk e 0 direction.Right).isSome = true)) := by
  unfold findBlockMoves
  rw [hh]
  rw [if_pos rfl, List.mem_append, mem_crop_scanDistances, mem_crop_scanDistances]

/-- For a vertical block, `findBlockMoves` is the cropped up scan followed by
the cropped down scan. -/
lemma findBlockMoves_vert {brd : board} {blk : block} {p : block × move}
    (hh : blk._isHorizontal = false) :
    p ∈ findBlockMoves brd blk ↔
      ((∃ d : Int, 1 ≤ d ∧ d ≤ 5 ∧
          makeMove brd blk 0 (-d) direction.Up = some p ∧
          ∀ e : Int, 1 ≤ e → e ≤ d →
            (makeMove brd blk 0 (-e) direction.Up).isSome = true) ∨
       (∃ d : Int, 1 ≤ d ∧ d ≤ 5 ∧
          makeMove brd blk 0 d direction.Down = some p ∧
          ∀ e : Int, 1 ≤ e → e ≤ d →
            (makeMove brd blk 0 e direction.Down).isSome = true)) := by
  unfold findBlockMoves
  rw [hh]
  rw [if_neg (by simp), List.mem_append, mem_crop_scanDistances, mem_crop_scanDistances]

/-- The translated block a generated move denotes: every generated pair
`(blk', mv)` has `mv._blockId = blk._id`, a positive step count (at most 5),
direction along the block's axis, and `blk'` equal to `blk` shifted by
`mv._steps` tiles in `mv._direction`. -/
lemma findBlockMoves_move_eq {brd : board} {blk blk' : block} {mv : move}
    (h : (blk', mv) ∈ findBlockMoves brd blk) :
    mv._blockId = blk._id ∧ 1 ≤ mv._steps ∧ mv._steps ≤ 5 ∧
    ((mv._direction = direction.Left ∨ mv._direction = direction.Right) ↔
      blk._isHorizontal = true) ∧
    blk' = (match mv._direction with
            | direction.Left => { blk with _x := blk._x - mv._steps }
            | direction.Right => { blk with _x := blk._x + mv._steps }
            | direction.Up => { blk with _y := blk._y - mv._steps }
            | direction.Down => { blk with _y := blk._y + mv._steps }) := by
  cases hh : blk._isHorizontal with
  | true =>
    rcases (findBlockMoves_horiz hh).1 h with ⟨d, hd1, hd5, hfd, -⟩ | ⟨d, hd1, hd5, hfd, -⟩
    · rw [makeMove_eq_some] at hfd
      obtain ⟨-, hp⟩ := hfd
      rw [Prod.mk.injEq] at hp
      obtain ⟨hb, hm⟩ := hp
      rw [max_abs_pos hd1] at hm
      subst hm
      refine ⟨rfl, hd1, hd5, by simp [hh], ?_⟩
      rw [hb]
      cases blk with
      | mk i y x hz k l =>
        replace hh : hz = _ := hh
        simp [block.mk.injEq, hh] <;> omega
    · rw [makeMove_eq_some] at hfd
      obtain ⟨-, hp⟩ := hfd
      rw [Prod.mk.injEq] at hp
      obtain ⟨hb, hm⟩ := hp
      rw [max_abs_pos2 hd1] at hm
      subst hm
      refine ⟨rfl, hd1, hd5, by simp [hh], ?_⟩
      rw [hb]
      cases blk with
      | mk i y x hz k l =>
        replace hh : hz = _ := hh
        simp [block.mk.injEq, hh] <;> omega
  | false =>
    rcases (findBlockMoves_vert hh).1 h with ⟨d, hd1, hd5, hfd, -⟩ | ⟨d, hd1, hd5, hfd, -⟩
    · rw [makeMove_eq_some] at hfd
      obtain ⟨-, hp⟩ := hfd
      rw [Prod.mk.injEq] at hp
      obtain ⟨hb, hm⟩ := hp
      rw [max_abs_pos' hd1] at hm
      subst hm
      refine ⟨rfl, hd1, hd5, by simp [hh], ?_⟩
      rw [hb]
      cases blk with
      | mk i y x hz k l =>
        replace hh : hz = _ := hh
        simp [block.mk.injEq, hh] <;> omega
    · rw [makeMove_eq_some] at hfd
      obtain ⟨-, hp⟩ := hfd
      rw [Prod.mk.injEq] at hp
      obtain ⟨hb, hm⟩ := hp
      rw [max_abs_pos2' hd1] at hm
      subst hm
      refine ⟨rfl, hd1, hd5, by simp [hh], ?_⟩
      rw [hb]
      cases blk with
      | mk i y x hz k l =>
        replace hh : hz = _ := hh
        simp [block.mk.injEq, hh] <;> omega

lemma g_boardSize_eq : g_boardSize = 6 := rfl

/-! ## C3: the win check -/

/-- C3: for a dequeued state containing a (horizontal) prisoner block, the
win check succeeds iff every tile strictly to the right of the prisoner's
footprint, within its row, up to the right edge of the grid, is empty; in
particular a prisoner already touching the right edge is winning. -/
theorem winCheck_occupancy_iff (blocks : List block) (it : block)
    (hp : findPrisoner blocks = some it) (hh : it._isHorizontal = true) :
    (isWinningState blocks = true ↔
      ∀ c : Int, it._x + it._length ≤ c → c < g_boardSize →
        dataGet (make_board blocks)._data it._y c = tileKind.Empty) ∧
    (it._x + it._length = g_boardSize → isWinningState blocks = true) := by
  have key : isWinningState blocks = allClearData (make_board blocks)._data it := by
    unfold isWinningState
    rw [hp]
    rfl
  have main : isWinningState blocks = true ↔
      ∀ c : Int, it._x + it._length ≤ c → c < g_boardSize →
        dataGet (make_board blocks)._data it._y c = tileKind.Empty := by
    rw [key]
    unfold allClearData
    rw [List.all_eq_true]
    constructor
    · intro h c h1 h2
      have hc : c ∈ intRange (it._x + it._length) (g_boardSize - 1) :=
        mem_intRange.2 ⟨h1, by simp only [g_boardSize_eq] at h2 ⊢; omega⟩
      simpa using h c hc
    · intro h x hx
      obtain ⟨hx1, hx2⟩ := mem_intRange.1 hx
      simp only [decide_eq_true_eq]
      exact h x hx1 (by simp only [g_boardSize_eq] at hx2 ⊢; omega)
  refine ⟨main, fun hedge => ?_⟩
  rw [main]
  intro c h1 h2
  exfalso
  omega

/-- Witness for C3 on the Scenario C fixture board. -/
theorem winCheck_occupancy_iff_witness :
    ((findPrisoner [prisonerC, blockerC] = some prisonerC ∧
       prisonerC._isHorizontal = true) ∧
     ((isWinningState [prisonerC, blockerC] = true ↔
        ∀ c : Int, prisonerC._x + prisonerC._length ≤ c → c < g_boardSize →
          dataGet (make_board [prisonerC, blockerC])._data prisonerC._y c =
            tileKind.Empty) ∧
      (prisonerC._x + prisonerC._length = g_boardSize →
        isWinningState [prisonerC, blockerC] = true))) :=
  ⟨⟨by decide, by decide⟩,
    winCheck_occupancy_iff [prisonerC, blockerC] prisonerC (by decide) (by decide)⟩

/-! ## C2: generated moves slide only over empty tiles -/

/-- C2: every move the generator produces has positive step count, every tile
along its slide path (between the old and new footprints) is inside the grid
and empty in the pre-move board, and the scan has no gaps: every shorter
distance in the same direction is also produced. -/
theorem moveGen_slidePath_clear (brd : board) (blk : block) (p : block × move)
    (hp : p ∈ findBlockMoves brd blk) :
    1 ≤ p.2._steps ∧
    (∀ c ∈ slidePath blk p.2,
      0 ≤ c.1 ∧ c.1 < g_boardSize ∧ 0 ≤ c.2 ∧ c.2 < g_boardSize ∧
      dataGet brd._data c.1 c.2 = tileKind.Empty) ∧
    (∀ s : Int, 1 ≤ s → s < p.2._steps →
      ∃ q ∈ findBlockMoves brd blk, q.2 = { p.2 with _steps := s }) := by
  cases hh : blk._isHorizontal with
  | true =>
    rcases (findBlockMoves_horiz hh).1 hp with ⟨d, hd1, hd5, hfd, hall⟩ |
      ⟨d, hd1, hd5, hfd, hall⟩
    · obtain ⟨-, hpe⟩ := makeMove_eq_some.1 hfd
      subst hpe
      simp only [max_abs_pos hd1]
      refine ⟨hd1, ?_, ?_⟩
      · intro c hc
        unfold slidePath at hc
        simp only [max_abs_pos hd1] at hc
        rw [List.mem_map] at hc
        obtain ⟨j, hj, rfl⟩ := hc
        rw [mem_intRange] at hj
        have hse := (@isEmptyTile_left brd blk _ hj.1).1
          (makeMove_isSome.1 (hall j hj.1 hj.2))
        exact ⟨hse.2.2.1, hse.2.2.2.1, hse.1, hse.2.1, hse.2.2.2.2⟩
      · intro s hs1 hs2
        have hq := hall s hs1 (by omega)
        rw [Option.isSome_iff_exists] at hq
        obtain ⟨q, hq⟩ := hq
        refine ⟨q, ?_, ?_⟩
        · rw [findBlockMoves_horiz hh]
          exact Or.inl ⟨s, hs1, by omega, hq, fun e he1 he2 => hall e he1 (by omega)⟩
        · obtain ⟨-, hqe⟩ := makeMove_eq_some.1 hq
          rw [hqe]
          simp only [max_abs_pos hs1]
    · obtain ⟨-, hpe⟩ := makeMove_eq_some.1 hfd
      subst hpe
      simp only [max_abs_pos2 hd1]
      refine ⟨hd1, ?_, ?_⟩
      · intro c hc
        unfold slidePath at hc
        simp only [max_abs_pos2 hd1] at hc
        rw [List.mem_map] at hc
        obtain ⟨j, hj, rfl⟩ := hc
        rw [mem_intRange] at hj
        have hse := (@isEmptyTile_right brd blk _ hj.1).1
          (makeMove_isSome.1 (hall j hj.1 hj.2))
        exact ⟨hse.2.2.1, hse.2.2.2.1, hse.1, hse.2.1, hse.2.2.2.2⟩
      · intro s hs1 hs2
        have hq := hall s hs1 (by omega)
        rw [Option.isSome_iff_exists] at hq
        obtain ⟨q, hq⟩ := hq
        refine ⟨q, ?_, ?_⟩
        · rw [findBlockMoves_horiz hh]
          exact Or.inr ⟨s, hs1, by omega, hq, fun e he1 he2 => hall e he1 (by omega)⟩
        · obtain ⟨-, hqe⟩ := makeMove_eq_some.1 hq
          rw [hqe]
          simp only [max_abs_pos2 hs1]
  | false =>
    rcases (findBlockMoves_vert hh).1 hp with ⟨d, hd1, hd5, hfd, hall⟩ |
      ⟨d, hd1, hd5, hfd, hall⟩
    · obtain ⟨-, hpe⟩ := makeMove_eq_some.1 hfd
      subst hpe
      simp only [max_abs_pos' hd1]
      refine ⟨hd1, ?_, ?_⟩
      · intro c hc
        unfold slidePath at hc
        simp only [max_abs_pos' hd1] at hc
        rw [List.mem_map] at hc
        obtain ⟨j, hj, rfl⟩ := hc
        rw [mem_intRange] at hj
        have hse := (@isEmptyTile_up brd blk _ hj.1).1
          (makeMove_isSome.1 (hall j hj.1 hj.2))
        exact ⟨hse.2.2.1, hse.2.2.2.1, hse.1, hse.2.1, hse.2.2.2.2⟩
      · intro s hs1 hs2
        have hq := hall s hs1 (by omega)
        rw [Option.isSome_iff_exists] at hq
        obtain ⟨q, hq⟩ := hq
        refine ⟨q, ?_, ?_⟩
        · rw [findBlockMoves_vert hh]
          exact Or.inl ⟨s, hs1, by omega, hq, fun e he1 he2 => hall e he1 (by omega)⟩
        · obtain ⟨-, hqe⟩ := makeMove_eq_some.1 hq
          rw [hqe]
          simp only [max_abs_pos' hs1]
    · obtain ⟨-, hpe⟩ := makeMove_eq_some.1 hfd
      subst hpe
      simp only [max_abs_pos2' hd1]
      refine ⟨hd1, ?_, ?_⟩
      · intro c hc
        unfold slidePath at hc
        simp only [max_abs_pos2' hd1] at hc
        rw [List.mem_map] at hc
        obtain ⟨j, hj, rfl⟩ := hc
        rw [mem_intRange] at hj
        have hse := (@isEmptyTile_down brd blk _ hj.1).1
          (makeMove_isSome.1 (hall j hj.1 hj.2))
        exact ⟨hse.2.2.1, hse.2.2.2.1, hse.1, hse.2.1, hse.2.2.2.2⟩
      · intro s hs1 hs2
        have hq := hall s hs1 (by omega)
        rw [Option.isSome_iff_exists] at hq
        obtain ⟨q, hq⟩ := hq
        refine ⟨q, ?_, ?_⟩
        · rw [findBlockMoves_vert hh]
          exact Or.inr ⟨s, hs1, by omega, hq, fun e he1 he2 => hall e he1 (by omega)⟩
        · obtain ⟨-, hqe⟩ := makeMove_eq_some.1 hq
          rw [hqe]
          simp only [max_abs_pos2' hs1]

/-- Witness for C2: the up-by-one move of the Scenario C blocker. -/
theorem moveGen_slidePath_clear_witness :
    (({ blockerC with _y := 0 },
      ({ _blockId := 1, _steps := 1, _direction := direction.Up } : move)) ∈
        findBlockMoves (make_board [prisonerC, blockerC]) blockerC) ∧
    (1 ≤ (({ _blockId := 1, _steps := 1, _direction := direction.Up } : move))._steps ∧
     (∀ c ∈ slidePath blockerC { _blockId := 1, _steps := 1, _direction := direction.Up },
       0 ≤ c.1 ∧ c.1 < g_boardSize ∧ 0 ≤ c.2 ∧ c.2 < g_boardSize ∧
       dataGet (make_board [prisonerC, blockerC])._data c.1 c.2 = tileKind.Empty) ∧
     (∀ s : Int, 1 ≤ s →
        s < (({ _blockId := 1, _steps := 1, _direction := direction.Up } : move))._steps →
        ∃ q ∈ findBlockMoves (make_board [prisonerC, blockerC]) blockerC,
          q.2 = { ({ _blockId := 1, _steps := 1, _direction := direction.Up } : move) with
                    _steps := s })) :=
  ⟨by decide,
   moveGen_slidePath_clear (make_board [prisonerC, blockerC]) blockerC
     ({ blockerC with _y := 0 }, { _blockId := 1, _steps := 1, _direction := direction.Up })
     (by decide)⟩

/-! ## C10: one expansion step changes exactly one block -/

lemma mem_expandChildren {visited : List board} {brd : board} {blocks : List block}
    {level : Int} {e : Int × move × List block} :
    e ∈ expandChildren visited brd blocks level ↔
      ∃ i : Nat, i < blocks.length ∧
        ∃ bm ∈ findBlockMoves brd (blocks.getD i default),
          make_board (blocks.set i bm.1) ∉ visited ∧
          e = (level + 1, bm.2, blocks.set i bm.1) := by
  unfold expandChildren
  rw [List.mem_flatMap]
  constructor
  · rintro ⟨i, hi, he⟩
    rw [List.mem_range] at hi
    rw [List.mem_filterMap] at he
    obtain ⟨bm, hbm, hbe⟩ := he
    simp only at hbe
    by_cases hv : make_board (blocks.set i bm.1) ∈ visited
    · rw [if_pos hv] at hbe
      cases hbe
    · rw [if_neg hv] at hbe
      exact ⟨i, hi, bm, hbm, hv, (Option.some.inj hbe).symm⟩
  · rintro ⟨i, hi, bm, hbm, hv, rfl⟩
    refine ⟨i, List.mem_range.2 hi, List.mem_filterMap.2 ⟨bm, hbm, ?_⟩⟩
    simp only
    rw [if_neg hv]

/-- C10: every child produced by one expansion step replaces exactly one
block of the parent list with a block that differs only in the position
coordinate along its own axis; its id, kind, orientation and length, and
every other list entry, are unchanged, and the child is queued one level
deeper. -/
theorem expansion_changes_one_block (visited : List board) (brd : board)
    (blocks : List block) (level : Int) (e : Int × move × List block)
    (he : e ∈ expandChildren visited brd blocks level) :
    ∃ i : Nat, i < blocks.length ∧ ∃ blk' : block,
      e.2.2 = blocks.set i blk' ∧
      e.1 = level + 1 ∧
      blk'._id = (blocks.getD i default)._id ∧
      blk'._kind = (blocks.getD i default)._kind ∧
      blk'._isHorizontal = (blocks.getD i default)._isHorizontal ∧
      blk'._length = (blocks.getD i default)._length ∧
      ((blocks.getD i default)._isHorizontal = true →
        blk'._y = (blocks.getD i default)._y ∧ blk'._x ≠ (blocks.getD i default)._x) ∧
      ((blocks.getD i default)._isHorizontal = false →
        blk'._x = (blocks.getD i default)._x ∧ blk'._y ≠ (blocks.getD i default)._y) ∧
      (∀ j : Nat, j ≠ i → (e.2.2)[j]? = blocks[j]?) := by
  obtain ⟨i, hi, bm, hbm, hv, rfl⟩ := mem_expandChildren.1 he
  obtain ⟨hid, hs1, hs5, hdir, hbe⟩ := findBlockMoves_move_eq hbm
  refine ⟨i, hi, bm.1, rfl, rfl, ?_⟩
  have hframe : ∀ j : Nat, j ≠ i → (blocks.set i bm.1)[j]? = blocks[j]? := by
    intro j hj
    rw [List.getElem?_set]
    rw [if_neg (fun hc => hj hc.symm)]
  cases hdd : bm.2._direction with
  | Left =>
    rw [hdd] at hbe
    dsimp only at hbe ⊢
    have hax : (blocks.getD i default)._isHorizontal = true :=
      hdir.1 (Or.inl hdd)
    refine ⟨?_, ?_, ?_, ?_, fun _ => ⟨?_, ?_⟩, fun hc => ?_, hframe⟩
    · rw [hbe]
    · rw [hbe]
    · rw [hbe]
    · rw [hbe]
    · rw [hbe]
    · rw [hbe]; dsimp only; omega
    · rw [hax] at hc; cases hc
  | Right =>
    rw [hdd] at hbe
    dsimp only at hbe ⊢
    have hax : (blocks.getD i default)._isHorizontal = true :=
      hdir.1 (Or.inr hdd)
    refine ⟨?_, ?_, ?_, ?_, fun _ => ⟨?_, ?_⟩, fun hc => ?_, hframe⟩
    · rw [hbe]
    · rw [hbe]
    · rw [hbe]
    · rw [hbe]
    · rw [hbe]
    · rw [hbe]; dsimp only; omega
    · rw [hax] at hc; cases hc
  | Up =>
    rw [hdd] at hbe
    dsimp only at hbe ⊢
    have hax : (blocks.getD i default)._isHorizontal = false := by
      cases hax : (blocks.getD i default)._isHorizontal
      · rfl
      · exact absurd (hdir.2 hax) (by rw [hdd]; rintro (h | h) <;> cases h)
    refine ⟨?_, ?_, ?_, ?_, fun hc => ?_, fun _ => ⟨?_, ?_⟩, hframe⟩
    · rw [hbe]
    · rw [hbe]
    · rw [hbe]
    · rw [hbe]
    · rw [hax] at hc; cases hc
    · rw [hbe]
    · rw [hbe]; dsimp only; omega
  | Down =>
    rw [hdd] at hbe
    dsimp only at hbe ⊢
    have hax : (blocks.getD i default)._isHorizontal = false := by
      cases hax : (blocks.getD i default)._isHorizontal
      · rfl
      · exact absurd (hdir.2 hax) (by rw [hdd]; rintro (h | h) <;> cases h)
    refine ⟨?_, ?_, ?_, ?_, fun hc => ?_, fun _ => ⟨?_, ?_⟩, hframe⟩
    · rw [hbe]
    · rw [hbe]
    · rw [hbe]
    · rw [hbe]
    · rw [hax] at hc; cases hc
    · rw [hbe]
    · rw [hbe]; dsimp only; omega

/-- Witness for C10: the up-by-one expansion child on the Scenario C board. -/
theorem expansion_changes_one_block_witness :
    ((((1 : Int) + 1, ({ _blockId := 1, _steps := 1, _direction := direction.Up } : move),
        [prisonerC, { blockerC with _y := 0 }]) ∈
      expandChildren [make_board [prisonerC, blockerC]]
        (make_board [prisonerC, blockerC]) [prisonerC, blockerC] 1)) ∧
    (∃ i : Nat, i < ([prisonerC, blockerC] : List block).length ∧ ∃ blk' : block,
      [prisonerC, { blockerC with _y := 0 }] = [prisonerC, blockerC].set i blk' ∧
      (1 : Int) + 1 = 1 + 1 ∧
      blk'._id = ([prisonerC, blockerC].getD i default)._id ∧
      blk'._kind = ([prisonerC, blockerC].getD i default)._kind ∧
      blk'._isHorizontal = ([prisonerC, blockerC].getD i default)._isHorizontal ∧
      blk'._length = ([prisonerC, blockerC].getD i default)._length ∧
      (([prisonerC, blockerC].getD i default)._isHorizontal = true →
        blk'._y = ([prisonerC, blockerC].getD i default)._y ∧
        blk'._x ≠ ([prisonerC, blockerC].getD i default)._x) ∧
      (([prisonerC, blockerC].getD i default)._isHorizontal = false →
        blk'._x = ([prisonerC, blockerC].getD i default)._x ∧
        blk'._y ≠ ([prisonerC, blockerC].getD i default)._y) ∧
      (∀ j : Nat, j ≠ i →
        ([prisonerC, { blockerC with _y := 0 }] : List block)[j]? =
          ([prisonerC, blockerC] : List block)[j]?)) := by
  have h := expansion_changes_one_block [make_board [prisonerC, blockerC]]
    (make_board [prisonerC, blockerC]) [prisonerC, blockerC] 1
    (1 + 1, { _blockId := 1, _steps := 1, _direction := direction.Up },
      [prisonerC, { blockerC with _y := 0 }]) (by decide)
  exact ⟨by decide, h⟩

/-! ## Rendering lemmas: grids, footprints, boards -/

lemma length_dataSet (d : List tileKind) (y x : Int) (k : tileKind) :
    (dataSet d y x k).length = d.length := by
  unfold dataSet
  split
  · exact List.length_set d _ k
  · rfl

lemma length_writeBlock (d : List tileKind) (blk : block) :
    (writeBlock d blk).length = d.length := by
  unfold writeBlock
  generalize blockCells blk = cells
  induction cells generalizing d with
  | nil => rfl
  | cons c cs ih => rw [List.foldl_cons, ih, length_dataSet]

lemma dataGet_dataSet_self {d : List tileKind} {y x : Int} {k : tileKind}
    (hin : 0 ≤ y ∧ y < g_boardSize ∧ 0 ≤ x ∧ x < g_boardSize)
    (hlen : d.length = 36) :
    dataGet (dataSet d y x k) y x = k := by
  unfold dataGet dataSet
  rw [if_pos hin, if_pos hin]
  rw [List.getD_eq_getElem?_getD,
    List.getElem?_set_self (by rw [hlen]; simp only [g_boardSize_eq] at hin ⊢; omega)]
  rfl

lemma dataGet_dataSet_ne {d : List tileKind} {y x y' x' : Int} {k : tileKind}
    (hne : (y, x) ≠ (y', x')) :
    dataGet (dataSet d y x k) y' x' = dataGet d y' x' := by
  unfold dataGet dataSet
  by_cases hin : 0 ≤ y ∧ y < g_boardSize ∧ 0 ≤ x ∧ x < g_boardSize
  · rw [if_pos hin]
    by_cases hin' : 0 ≤ y' ∧ y' < g_boardSize ∧ 0 ≤ x' ∧ x' < g_boardSize
    · rw [if_pos hin', if_pos hin']
      rw [List.getD_eq_getElem?_getD, List.getD_eq_getElem?_getD, List.getElem?_set]
      have hix : ¬((y * g_boardSize + x).toNat = (y' * g_boardSize + x').toNat) := by
        intro hc
        simp only [g_boardSize_eq] at hin hin' hc
        apply hne
        have h1 : y = y' := by omega
        have h2 : x = x' := by omega
        rw [h1, h2]
      rw [if_neg hix]
    · rw [if_neg hin', if_neg hin']
  · rw [if_neg hin]

lemma dataGet_emptyData {y x : Int} : dataGet emptyData y x = tileKind.Empty := by
  unfold dataGet emptyData
  split
  · rw [List.getD_eq_getElem?_getD, List.getElem?_replicate]
    split <;> rfl
  · rfl

lemma dataGet_foldl_cells (cells : List (Int × Int)) (k : tileKind) :
    ∀ (d : List tileKind), d.length = 36 →
    ∀ (y x : Int), (0 ≤ y ∧ y < g_boardSize ∧ 0 ≤ x ∧ x < g_boardSize) →
    dataGet (cells.foldl (fun acc c => dataSet acc c.1 c.2 k) d) y x =
      if (y, x) ∈ cells then k else dataGet d y x := by
  induction cells with
  | nil =>
    intro d hlen y x hin
    simp
  | cons c cs ih =>
    intro d hlen y x hin
    rw [List.foldl_cons]
    rw [ih (dataSet d c.1 c.2 k) (by rw [length_dataSet, hlen]) y x hin]
    by_cases hmem : (y, x) ∈ cs
    · rw [if_pos hmem, if_pos (List.mem_cons_of_mem c hmem)]
    · rw [if_neg hmem]
      by_cases hc : (y, x) = c
      · rw [if_pos (by rw [hc]; exact List.mem_cons_self c cs)]
        rw [← hc]
        exact dataGet_dataSet_self hin hlen
      · rw [if_neg (by
          intro hm
          rcases List.mem_cons.1 hm with h | h
          · exact hc h
          · exact hmem h)]
        exact dataGet_dataSet_ne (fun he => hc he.symm)

lemma dataGet_writeBlock (blk : block) (d : List tileKind) (hlen : d.length = 36)
    (y x : Int) (hin : 0 ≤ y ∧ y < g_boardSize ∧ 0 ≤ x ∧ x < g_boardSize) :
    dataGet (writeBlock d blk) y x =
      if (y, x) ∈ blockCells blk then blk._kind else dataGet d y x := by
  unfold writeBlock
  exact dataGet_foldl_cells (blockCells blk) blk._kind d hlen y x hin

lemma make_board_foldl (l : List block) :
    ∀ (d : List tileKind) (hs : List Int),
      l.foldl (fun brd blk =>
        { _data := writeBlock brd._data blk
          _hashes := hash_block blk :: brd._hashes })
        ({ _data := d, _hashes := hs } : board) =
      ({ _data := l.foldl (fun dd p => writeBlock dd p) d
         _hashes := (l.map hash_block).reverse ++ hs } : board) := by
  induction l with
  | nil => intro d hs; simp
  | cons b bs ih =>
    intro d hs
    rw [List.foldl_cons, List.foldl_cons, ih]
    simp

/-- `make_board` in closed form: the occupancy of `renderBlocks` plus the
reversed per-block hash list. -/
lemma make_board_eq (l : List block) :
    make_board l = { _data := (renderBlocks l)._data
                     _hashes := (l.map hash_block).reverse } := by
  unfold make_board renderBlocks
  rw [make_board_foldl l emptyData []]
  simp

lemma length_render_foldl (l : List block) :
    ∀ d : List tileKind, (l.foldl (fun dd p => writeBlock dd p) d).length = d.length := by
  induction l with
  | nil => intro d; rfl
  | cons b bs ih => intro d; rw [List.foldl_cons, ih, length_writeBlock]

lemma length_renderBlocks (l : List block) : (renderBlocks l)._data.length = 36 := by
  unfold renderBlocks
  rw [length_render_foldl]
  rfl

lemma dataGet_foldl_not_covered (l : List block) :
    ∀ d : List tileKind, d.length = 36 →
    ∀ y x : Int, (∀ blk ∈ l, (y, x) ∉ blockCells blk) →
    (0 ≤ y ∧ y < g_boardSize ∧ 0 ≤ x ∧ x < g_boardSize) →
    dataGet (l.foldl (fun dd p => writeBlock dd p) d) y x = dataGet d y x := by
  induction l with
  | nil => intro d _ y x _ _; rfl
  | cons b bs ih =>
    intro d hlen y x hnc hin
    rw [List.foldl_cons]
    rw [ih (writeBlock d b) (by rw [length_writeBlock, hlen]) y x
      (fun blk hblk => hnc blk (List.mem_cons_of_mem b hblk)) hin]
    rw [dataGet_writeBlock b d hlen y x hin,
      if_neg (hnc b (List.mem_cons_self b bs))]

lemma dataGet_foldl_covered (l : List block) :
    ∀ d : List tileKind, d.length = 36 →
    l.Pairwise disjointCells →
    ∀ blk ∈ l, ∀ y x : Int, (y, x) ∈ blockCells blk →
    (0 ≤ y ∧ y < g_boardSize ∧ 0 ≤ x ∧ x < g_boardSize) →
    dataGet (l.foldl (fun dd p => writeBlock dd p) d) y x = blk._kind := by
  induction l with
  | nil => intro d _ _ blk hblk; cases hblk
  | cons b bs ih =>
    intro d hlen hpw blk hblk y x hc hin
    rw [List.pairwise_cons] at hpw
    rw [List.foldl_cons]
    rcases List.mem_cons.1 hblk with rfl | hblk'
    · rw [dataGet_foldl_not_covered bs (writeBlock d blk)
        (by rw [length_writeBlock, hlen]) y x
        (fun b' hb' hc' => (hpw.1 b' hb') (y, x) hc hc') hin]
      rw [dataGet_writeBlock blk d hlen y x hin, if_pos hc]
    · exact ih (writeBlock d b) (by rw [length_writeBlock, hlen]) hpw.2
        blk hblk' y x hc hin

lemma dataGet_renderBlocks_covered {l : List block} (hpw : l.Pairwise disjointCells)
    {blk : block} (hblk : blk ∈ l) {y x : Int} (hc : (y, x) ∈ blockCells blk)
    (hin : 0 ≤ y ∧ y < g_boardSize ∧ 0 ≤ x ∧ x < g_boardSize) :
    dataGet (renderBlocks l)._data y x = blk._kind := by
  unfold renderBlocks
  exact dataGet_foldl_covered l emptyData rfl hpw blk hblk y x hc hin

lemma dataGet_renderBlocks_not_covered {l : List block} {y x : Int}
    (h : ∀ blk ∈ l, (y, x) ∉ blockCells blk)
    (hin : 0 ≤ y ∧ y < g_boardSize ∧ 0 ≤ x ∧ x < g_boardSize) :
    dataGet (renderBlocks l)._data y x = tileKind.Empty := by
  unfold renderBlocks
  rw [dataGet_foldl_not_covered l emptyData rfl y x h hin]
  exact dataGet_emptyData

lemma render_data_eq_of_dataGet {l1 l2 : List block}
    (h : ∀ y x : Int, (0 ≤ y ∧ y < g_boardSize ∧ 0 ≤ x ∧ x < g_boardSize) →
      dataGet (renderBlocks l1)._data y x = dataGet (renderBlocks l2)._data y x) :
    (renderBlocks l1)._data = (renderBlocks l2)._data := by
  apply List.ext_getElem?
  intro n
  by_cases hn : n < 36
  · have hin : (0 : Int) ≤ (n / 6 : Nat) ∧ ((n / 6 : Nat) : Int) < g_boardSize ∧
        (0 : Int) ≤ (n % 6 : Nat) ∧ ((n % 6 : Nat) : Int) < g_boardSize := by
      simp only [g_boardSize_eq]
      omega
    have hkey := h ((n / 6 : Nat) : Int) ((n % 6 : Nat) : Int) hin
    unfold dataGet at hkey
    rw [if_pos hin, if_pos hin] at hkey
    have hidx : ((((n / 6 : Nat) : Int)) * g_boardSize + ((n % 6 : Nat) : Int)).toNat = n := by
      simp only [g_boardSize_eq]
      omega
    rw [hidx] at hkey
    rw [List.getD_eq_getElem?_getD, List.getD_eq_getElem?_getD] at hkey
    rw [List.getElem?_eq_getElem (by rw [length_renderBlocks]; exact hn),
      List.getElem?_eq_getElem (by rw [length_renderBlocks]; exact hn)] at hkey ⊢
    simpa using hkey
  · rw [List.getElem?_eq_none (by rw [length_renderBlocks]; omega),
      List.getElem?_eq_none (by rw [length_renderBlocks]; omega)]

lemma disjointCells_symm {a b : block} (h : disjointCells a b) : disjointCells b a :=
  fun c hcb hca => h c hca hcb

lemma memcmpLt_self (l : List tileKind) : memcmpLt l l = false := by
  induction l with
  | nil => rfl
  | cons x xs ih =>
    unfold memcmpLt
    rw [if_neg (lt_irrefl _), if_neg (lt_irrefl _)]
    exact ih

/-! ## C5: board comparison and block-list ordering -/

/-- C5 (amended, the part that holds): the C++ `Board` is occupancy only, so
two valid block lists that are permutations of one another render to equal
(and `operator<`-equivalent) `Board`s. -/
theorem renderBlocks_occupancy_only (l1 l2 : List block) (hperm : l1.Perm l2)
    (hval : validConfig l1) :
    renderBlocks l1 = renderBlocks l2 ∧
    Board.lt (renderBlocks l1) (renderBlocks l2) = false ∧
    Board.lt (renderBlocks l2) (renderBlocks l1) = false := by
  have hpw2 : l2.Pairwise disjointCells :=
    ((hperm.pairwise_iff (fun h => disjointCells_symm h)).1 hval.2)
  have hdata : (renderBlocks l1)._data = (renderBlocks l2)._data := by
    apply render_data_eq_of_dataGet
    intro y x hin
    by_cases hcov : ∃ blk ∈ l1, (y, x) ∈ blockCells blk
    · obtain ⟨blk, hblk, hc⟩ := hcov
      rw [dataGet_renderBlocks_covered hval.2 hblk hc hin,
        dataGet_renderBlocks_covered hpw2 (hperm.mem_iff.1 hblk) hc hin]
    · push_neg at hcov
      rw [dataGet_renderBlocks_not_covered hcov hin,
        dataGet_renderBlocks_not_covered
          (fun blk hblk => hcov blk (hperm.mem_iff.2 hblk)) hin]
  have heq : renderBlocks l1 = renderBlocks l2 := by
    have e1 : renderBlocks l1 = { _data := (renderBlocks l1)._data } := rfl
    have e2 : renderBlocks l2 = { _data := (renderBlocks l2)._data } := rfl
    rw [e1, e2, hdata]
  refine ⟨heq, ?_, ?_⟩
  · unfold Board.lt
    rw [hdata]
    exact memcmpLt_self _
  · unfold Board.lt
    rw [hdata]
    exact memcmpLt_self _

/-- Witness for C5's amended theorem: the two-block fixture pair, permuted. -/
theorem renderBlocks_occupancy_only_witness :
    (([blockA, blockB] : List block).Perm [blockB, blockA] ∧
     validConfig [blockA, blockB]) ∧
    (renderBlocks [blockA, blockB] = renderBlocks [blockB, blockA] ∧
     Board.lt (renderBlocks [blockA, blockB]) (renderBlocks [blockB, blockA]) = false ∧
     Board.lt (renderBlocks [blockB, blockA]) (renderBlocks [blockA, blockB]) = false) :=
  ⟨⟨List.Perm.swap blockB blockA [], by decide⟩,
    renderBlocks_occupancy_only [blockA, blockB] [blockB, blockA]
      (List.Perm.swap blockB blockA []) (by decide)⟩

/-- C5 counterexample: in the OCaml implementation the very same permuted
pair produces *unequal* `board` values (the `_hashes` component preserves the
list order), so the two orderings are distinct search states for the OCaml
deduplication tables. -/
theorem make_board_order_counterexample :
    ([blockA, blockB] : List block).Perm [blockB, blockA] ∧
    validConfig [blockA, blockB] ∧
    make_board [blockA, blockB] ≠ make_board [blockB, blockA] :=
  ⟨List.Perm.swap blockB blockA [], by decide, by decide⟩

/-! ## C6: no validation of the initial configuration -/

/-- C6 counterexample: on a concrete initial configuration whose two blocks
fully overlap, both solvers run their search and return a successful search
result; no validation failure of any kind occurs (the solvers have no
`InvalidConfiguration` outcome at all). -/
theorem solve_overlap_counterexample :
    (¬ disjointCells prisonerFree overlapBlock) ∧
    solveBoard 1 [prisonerFree, overlapBlock] =
      SolveResult.Solved [[prisonerFree, overlapBlock]] [] ∧
    SolveBoard 1 [prisonerFree, overlapBlock] =
      CppResult.Solved [[prisonerFree, overlapBlock]] := by
  refine ⟨?_, by decide, by decide⟩
  intro h
  exact h (2, 4) (by decide) (by decide)

/-- C6 (amended): `solve` performs no validation of the initial block list —
whatever the identity of the overlapping block, the search runs normally over
the rendered (overwritten) occupancy and reports an ordinary search outcome;
here a jammed overlapping configuration is searched to exhaustion and yields
`NoSolution`. -/
theorem solve_overlap_runs_search (n : Int) :
    (¬ disjointCells jamRowFill (overlapBlockId n)) ∧
    solveBoard 2 (jammedOverlapCfg n) = SolveResult.NoSolution := by
  refine ⟨?_, rfl⟩
  intro h
  exact h (2, 5) (by decide) (by simp [blockCells, overlapBlockId])

/-! ## C9: the board invariant is preserved by generated moves -/

lemma mem_blockCells_horiz {blk : block} (hh : blk._isHorizontal = true) {c : Int × Int} :
    c ∈ blockCells blk ↔
      ∃ t : Int, 0 ≤ t ∧ t < blk._length ∧ c = (blk._y, blk._x + t) := by
  unfold blockCells
  rw [hh, if_pos rfl, List.mem_map]
  constructor
  · rintro ⟨i, hi, rfl⟩
    rw [List.mem_range] at hi
    exact ⟨(i : Int), by omega, by omega, rfl⟩
  · rintro ⟨t, ht0, htl, rfl⟩
    refine ⟨t.toNat, List.mem_range.2 (by omega), ?_⟩
    have : ((t.toNat : Nat) : Int) = t := by omega
    rw [this]

lemma mem_blockCells_vert {blk : block} (hh : blk._isHorizontal = false) {c : Int × Int} :
    c ∈ blockCells blk ↔
      ∃ t : Int, 0 ≤ t ∧ t < blk._length ∧ c = (blk._y + t, blk._x) := by
  unfold blockCells
  rw [hh]
  rw [if_neg (by simp), List.mem_map]
  constructor
  · rintro ⟨i, hi, rfl⟩
    rw [List.mem_range] at hi
    exact ⟨(i : Int), by omega, by omega, rfl⟩
  · rintro ⟨t, ht0, htl, rfl⟩
    refine ⟨t.toNat, List.mem_range.2 (by omega), ?_⟩
    have : ((t.toNat : Nat) : Int) = t := by omega
    rw [this]

lemma not_covered_of_empty {l : List block} (hval : validConfig l) {y x : Int}
    (hin : 0 ≤ y ∧ y < g_boardSize ∧ 0 ≤ x ∧ x < g_boardSize)
    (he : dataGet (make_board l)._data y x = tileKind.Empty) :
    ∀ blk ∈ l, (y, x) ∉ blockCells blk := by
  intro blk hb hc
  have hdata : (make_board l)._data = (renderBlocks l)._data := by
    rw [make_board_eq]
  rw [hdata] at he
  rw [dataGet_renderBlocks_covered hval.2 hb hc hin] at he
  exact ((hval.1 blk hb).2.1) he

/-- Every cell of the block a generated move produces is inside the grid, and
is either a cell of the moving block's old footprint or a tile that is empty
in the pre-move board. -/
lemma moved_block_cells {brd : board} {blk blk' : block} {mv : move}
    (h : (blk', mv) ∈ findBlockMoves brd blk) (hb : blockInBounds blk) :
    ∀ c ∈ blockCells blk', inBoundsCell c ∧
      (c ∈ blockCells blk ∨ dataGet brd._data c.1 c.2 = tileKind.Empty) := by
  cases hh : blk._isHorizontal with
  | true =>
    rcases (findBlockMoves_horiz hh).1 h with ⟨d, hd1, hd5, hfd, hall⟩ |
      ⟨d, hd1, hd5, hfd, hall⟩
    · obtain ⟨-, hpe⟩ := makeMove_eq_some.1 hfd
      rw [Prod.mk.injEq] at hpe
      intro c hc
      rw [hpe.1] at hc
      rw [mem_blockCells_horiz (by rw [← hh])] at hc
      obtain ⟨t, ht0, htl, rfl⟩ := hc
      dsimp only at htl ⊢
      simp only [add_zero]
      by_cases hcase : d ≤ t
      · have hold : (blk._y, blk._x + -d + t) ∈ blockCells blk := by
          rw [mem_blockCells_horiz hh]
          exact ⟨t - d, by omega, by omega, by rw [Prod.mk.injEq]; constructor <;> [rfl; omega]⟩
        exact ⟨hb _ hold, Or.inl hold⟩
      · have he := (isEmptyTile_left (d := d - t) (by omega)).1
          (makeMove_isSome.1 (hall (d - t) (by omega) (by omega)))
        have hco : blk._x + -d + t = blk._x - (d - t) := by omega
        rw [hco]
        exact ⟨⟨he.2.2.1, he.2.2.2.1, he.1, he.2.1⟩, Or.inr he.2.2.2.2⟩
    · obtain ⟨-, hpe⟩ := makeMove_eq_some.1 hfd
      rw [Prod.mk.injEq] at hpe
      intro c hc
      rw [hpe.1] at hc
      rw [mem_blockCells_horiz (by rw [← hh])] at hc
      obtain ⟨t, ht0, htl, rfl⟩ := hc
      dsimp only at htl ⊢
      simp only [add_zero]
      by_cases hcase : d + t < blk._length
      · have hold : (blk._y, blk._x + d + t) ∈ blockCells blk := by
          rw [mem_blockCells_horiz hh]
          exact ⟨d + t, by omega, by omega, by rw [Prod.mk.injEq]; constructor <;> [rfl; omega]⟩
        exact ⟨hb _ hold, Or.inl hold⟩
      · have he := (isEmptyTile_right (d := d + t - blk._length + 1) (by omega)).1
          (makeMove_isSome.1 (hall (d + t - blk._length + 1) (by omega) (by omega)))
        have hco : blk._x + d + t = blk._x + blk._length + (d + t - blk._length + 1) - 1 := by
          omega
        rw [hco]
        exact ⟨⟨he.2.2.1, he.2.2.2.1, he.1, he.2.1⟩, Or.inr he.2.2.2.2⟩
  | false =>
    rcases (findBlockMoves_vert hh).1 h with ⟨d, hd1, hd5, hfd, hall⟩ |
      ⟨d, hd1, hd5, hfd, hall⟩
    · obtain ⟨-, hpe⟩ := makeMove_eq_some.1 hfd
      rw [Prod.mk.injEq] at hpe
      intro c hc
      rw [hpe.1] at hc
      rw [mem_blockCells_vert (by rw [← hh])] at hc
      obtain ⟨t, ht0, htl, rfl⟩ := hc
      dsimp only at htl ⊢
      simp only [add_zero]
      by_cases hcase : d ≤ t
      · have hold : (blk._y + -d + t, blk._x) ∈ blockCells blk := by
          rw [mem_blockCells_vert hh]
          exact ⟨t - d, by omega, by omega, by rw [Prod.mk.injEq]; constructor <;> [omega; rfl]⟩
        exact ⟨hb _ hold, Or.inl hold⟩
      · have he := (isEmptyTile_up (d := d - t) (by omega)).1
          (makeMove_isSome.1 (hall (d - t) (by omega) (by omega)))
        have hco : blk._y + -d + t = blk._y - (d - t) := by omega
        rw [hco]
        exact ⟨⟨he.2.2.1, he.2.2.2.1, he.1, he.2.1⟩, Or.inr he.2.2.2.2⟩
    · obtain ⟨-, hpe⟩ := makeMove_eq_some.1 hfd
      rw [Prod.mk.injEq] at hpe
      intro c hc
      rw [hpe.1] at hc
      rw [mem_blockCells_vert (by rw [← hh])] at hc
      obtain ⟨t, ht0, htl, rfl⟩ := hc
      dsimp only at htl ⊢
      simp only [add_zero]
      by_cases hcase : d + t < blk._length
      · have hold : (blk._y + d + t, blk._x) ∈ blockCells blk := by
          rw [mem_blockCells_vert hh]
          exact ⟨d + t, by omega, by omega, by rw [Prod.mk.injEq]; constructor <;> [omega; rfl]⟩
        exact ⟨hb _ hold, Or.inl hold⟩
      · have he := (isEmptyTile_down (d := d + t - blk._length + 1) (by omega)).1
          (makeMove_isSome.1 (hall (d + t - blk._length + 1) (by omega) (by omega)))
        have hco : blk._y + d + t = blk._y + blk._length + (d + t - blk._length + 1) - 1 := by
          omega
        rw [hco]
        exact ⟨⟨he.2.2.1, he.2.2.2.1, he.1, he.2.1⟩, Or.inr he.2.2.2.2⟩

lemma getD_eq_getElem {l : List block} {i : Nat} (hi : i < l.length) :
    l.getD i default = l[i] := by
  rw [List.getD_eq_getElem?_getD, List.getElem?_eq_getElem hi]
  rfl

lemma stepRel_preserves_valid {blocks blocks' : List block}
    (hval : validConfig blocks) (hs : stepRel blocks blocks') :
    validConfig blocks' := by
  obtain ⟨i, hi, bm, hbm, rfl⟩ := hs
  have hgd : blocks.getD i default = blocks[i] := getD_eq_getElem hi
  have hmem : blocks.getD i default ∈ blocks := by
    rw [hgd]
    exact List.getElem_mem hi
  obtain ⟨hbI, hkind, hlen⟩ := hval.1 _ hmem
  have hcells := moved_block_cells hbm hbI
  obtain ⟨hid, hs1, hs5, hdir, hbe⟩ := findBlockMoves_move_eq hbm
  have hkd : bm.1._kind = (blocks.getD i default)._kind := by
    cases hdd : bm.2._direction <;> (rw [hdd] at hbe; rw [hbe])
  have hld : bm.1._length = (blocks.getD i default)._length := by
    cases hdd : bm.2._direction <;> (rw [hdd] at hbe; rw [hbe])
  have hpwg := List.pairwise_iff_getElem.1 hval.2
  have hdisj_new : ∀ j, (hj : j < blocks.length) → j ≠ i →
      disjointCells bm.1 (blocks[j]) := by
    intro j hj hne c hc hcj
    rcases (hcells c hc).2 with hold | hempty
    · rw [hgd] at hold
      rcases Nat.lt_or_ge i j with hij | hij
      · exact (hpwg i j hi hj hij) c hold hcj
      · have hji : j < i := by omega
        exact (hpwg j i hj hi hji) c hcj hold
    · have hbc := (hcells c hc).1
      unfold inBoundsCell at hbc
      have := not_covered_of_empty hval hbc hempty blocks[j] (List.getElem_mem hj)
      exact this hcj
  constructor
  · intro b hb
    rcases List.mem_or_eq_of_mem_set hb with hbo | rfl
    · exact hval.1 b hbo
    · exact ⟨fun c hc => (hcells c hc).1, by rw [hkd]; exact hkind, by rw [hld]; exact hlen⟩
  · rw [List.pairwise_iff_getElem]
    intro a b ha hb hab
    rw [List.length_set] at ha hb
    rw [List.getElem_set, List.getElem_set]
    by_cases hia : i = a
    · rw [if_pos hia]
      rw [if_neg (by omega)]
      exact hdisj_new b hb (by omega)
    · rw [if_neg hia]
      by_cases hib : i = b
      · rw [if_pos hib]
        exact disjointCells_symm (hdisj_new a ha (by omega))
      · rw [if_neg hib]
        exact hpwg a b ha hb hab

/-- C9: starting from a valid configuration (blocks inside the 6×6 grid,
real kinds, positive lengths, pairwise disjoint footprints), every state
reachable through generated moves satisfies the same invariant. -/
theorem reachable_states_valid (blocks blocks' : List block)
    (hval : validConfig blocks)
    (h : Relation.ReflTransGen stepRel blocks blocks') :
    validConfig blocks' := by
  induction h with
  | refl => exact hval
  | tail _ h2 ih => exact stepRel_preserves_valid ih h2

/-- Witness for C9: one generated move on the Scenario C board. -/
theorem reachable_states_valid_witness :
    validConfig [prisonerC, blockerC] ∧
    validConfig [prisonerC, { blockerC with _y := 0 }] :=
  ⟨by decide,
    reachable_states_valid [prisonerC, blockerC] [prisonerC, { blockerC with _y := 0 }]
      (by decide)
      (Relation.ReflTransGen.single
        ⟨1, by decide,
          ({ blockerC with _y := 0 },
            { _blockId := 1, _steps := 1, _direction := direction.Up }),
          by decide, by decide⟩)⟩

/-! ## C8: the state store is first-writer-wins; states expand at most once -/

lemma mapInsert_mem_noop {m : List (Board × Move)} {b : Board} {mv : Move}
    (h : mapMem m b = true) : mapInsert m b mv = m := by
  unfold mapInsert
  rw [if_pos h]

lemma mapFind_mapInsert_preserves {m : List (Board × Move)} {b b' : Board}
    {mv mv' : Move} (h : mapFind m b' = some mv') :
    mapFind (mapInsert m b mv) b' = some mv' := by
  unfold mapInsert
  by_cases hmem : mapMem m b
  · rw [if_pos hmem]
    exact h
  · rw [if_neg hmem]
    unfold mapFind at h ⊢
    rw [List.find?_append]
    cases hf : m.find? (fun e => decide (e.1 = b')) with
    | none => rw [hf] at h; simp at h
    | some e => rw [hf] at h; exact h

lemma SolveBoardLoopT_trace_nodup :
    ∀ (fuel : Nat) (prev : List (Board × Move)) (visited : List Board)
      (queue : List (List block)) (trace : List Board),
      trace.Nodup → (∀ b ∈ trace, b ∈ visited) →
      (SolveBoardLoopT fuel prev visited queue trace).1.Nodup := by
  intro fuel
  induction fuel with
  | zero => intro prev visited queue trace h1 _; exact h1
  | succ n ih =>
    intro prev visited queue trace h1 h2
    cases queue with
    | nil => exact h1
    | cons blocks rest =>
      show (if renderBlocks blocks ∈ visited then
          SolveBoardLoopT n prev visited rest trace
        else _).1.Nodup
      by_cases hv : renderBlocks blocks ∈ visited
      · rw [if_pos hv]
        exact ih prev visited rest trace h1 h2
      · rw [if_neg hv]
        have hnt : renderBlocks blocks ∉ trace := fun hmem => hv (h2 _ hmem)
        cases hp : findPrisoner blocks with
        | none =>
          simp only [hp]
          exact List.nodup_cons.2 ⟨hnt, h1⟩
        | some it =>
          simp only [hp]
          by_cases hw : allClearData (renderBlocks blocks)._data it
          · rw [if_pos hw]
            exact List.nodup_cons.2 ⟨hnt, h1⟩
          · rw [if_neg hw]
            refine ih _ _ _ _ (List.nodup_cons.2 ⟨hnt, h1⟩) ?_
            intro b hb
            rcases List.mem_cons.1 hb with rfl | hb'
            · exact List.mem_cons_self _ _
            · exact List.mem_cons_of_mem _ (h2 b hb')

lemma SolveBoardLoopT_result :
    ∀ (fuel : Nat) (prev : List (Board × Move)) (visited : List Board)
      (queue : List (List block)) (trace : List Board),
      (SolveBoardLoopT fuel prev visited queue trace).2 =
        SolveBoardLoop fuel prev visited queue := by
  intro fuel
  induction fuel with
  | zero => intro _ _ _ _; rfl
  | succ n ih =>
    intro prev visited queue trace
    cases queue with
    | nil => rfl
    | cons blocks rest =>
      simp only [SolveBoardLoopT, SolveBoardLoop]
      by_cases hv : renderBlocks blocks ∈ visited
      · rw [if_pos hv, if_pos hv]
        exact ih prev visited rest trace
      · rw [if_neg hv, if_neg hv]
        cases hp : findPrisoner blocks with
        | none => rfl
        | some it =>
          simp only
          by_cases hw : allClearData (renderBlocks blocks)._data it
          · rw [if_pos hw, if_pos hw]
          · rw [if_neg hw, if_neg hw]
            exact ih _ _ _ _

/-- C8: the C++ state store is first-writer-wins — `map::insert` is a no-op
when the board is already present, and never overwrites an existing binding —
and over a whole `SolveBoard` run every board state is expanded at most once
(the trace of expanded boards has no duplicates, and the instrumented loop
computes exactly `SolveBoard`). -/
theorem stateStore_first_writer_wins :
    (∀ (m : List (Board × Move)) (b : Board) (mv : Move),
        mapMem m b = true → mapInsert m b mv = m) ∧
    (∀ (m : List (Board × Move)) (b b' : Board) (mv mv' : Move),
        mapFind m b' = some mv' → mapFind (mapInsert m b mv) b' = some mv') ∧
    (∀ (fuel : Nat) (blocks : List block),
        (SolveBoardLoopT fuel
            (mapInsert [] (renderBlocks blocks)
              { _blockId := -1, _move := direction.Left })
            [] [blocks] []).1.Nodup ∧
        (SolveBoardLoopT fuel
            (mapInsert [] (renderBlocks blocks)
              { _blockId := -1, _move := direction.Left })
            [] [blocks] []).2 = SolveBoard fuel blocks) :=
  ⟨fun _ _ _ h => mapInsert_mem_noop h,
   fun _ _ _ _ _ h => mapFind_mapInsert_preserves h,
   fun fuel blocks =>
     ⟨SolveBoardLoopT_trace_nodup fuel _ [] [blocks] [] List.nodup_nil
        (fun b hb => absurd hb (List.not_mem_nil b)),
      SolveBoardLoopT_result fuel _ [] [blocks] []⟩⟩

/-- Witness for C8: concrete store operations and a concrete solved run. -/
theorem stateStore_first_writer_wins_witness :
    (mapInsert [(renderBlocks [prisonerC], { _blockId := 0, _move := direction.Left })]
        (renderBlocks [prisonerC]) { _blockId := 5, _move := direction.Right } =
      [(renderBlocks [prisonerC], { _blockId := 0, _move := direction.Left })]) ∧
    (mapFind
        (mapInsert [(renderBlocks [prisonerC], { _blockId := 0, _move := direction.Left })]
          (renderBlocks [blockerC]) { _blockId := 1, _move := direction.Up })
        (renderBlocks [prisonerC]) =
      some { _blockId := 0, _move := direction.Left }) ∧
    ((SolveBoardLoopT 50
        (mapInsert [] (renderBlocks [prisonerC, blockerC])
          { _blockId := -1, _move := direction.Left })
        [] [[prisonerC, blockerC]] []).1.Nodup ∧
     (SolveBoardLoopT 50
        (mapInsert [] (renderBlocks [prisonerC, blockerC])
          { _blockId := -1, _move := direction.Left })
        [] [[prisonerC, blockerC]] []).2 = SolveBoard 50 [prisonerC, blockerC]) :=
  ⟨stateStore_first_writer_wins.1 _ _ _ (by decide),
   stateStore_first_writer_wins.2.1 _ _ _ _ _ (by decide),
   stateStore_first_writer_wins.2.2 50 [prisonerC, blockerC]⟩

/-! ## C7: termination of the search -/

lemma length_cropAtFirstFullTile {α : Type} (l : List (Option α)) :
    (cropAtFirstFullTile l).length ≤ l.length := by
  induction l with
  | nil => exact Nat.le_refl 0
  | cons hd tl ih =>
    cases hd with
    | none => simp [cropAtFirstFullTile]
    | some a =>
      simp only [cropAtFirstFullTile, List.length_cons]
      omega

lemma length_findBlockMoves (brd : board) (blk : block) :
    (findBlockMoves brd blk).length ≤ 10 := by
  unfold findBlockMoves
  have h5 : ∀ g : Int → Option (block × move),
      (cropAtFirstFullTile (scanDistances.map g)).length ≤ 5 := by
    intro g
    have := length_cropAtFirstFullTile (scanDistances.map g)
    rw [List.length_map] at this
    exact this
  split
  · rw [List.length_append]
    have := h5 (fun distance => makeMove brd blk (-distance) 0 direction.Left)
    have := h5 (fun distance => makeMove brd blk distance 0 direction.Right)
    omega
  · rw [List.length_append]
    have := h5 (fun distance => makeMove brd blk 0 (-distance) direction.Up)
    have := h5 (fun distance => makeMove brd blk 0 distance direction.Down)
    omega

lemma length_expandChildren (visited : List board) (brd : board)
    (blocks : List block) (level : Int) :
    (expandChildren visited brd blocks level).length ≤ 10 * blocks.length := by
  unfold expandChildren
  rw [List.length_flatMap]
  have hb : ∀ i ∈ List.range blocks.length,
      ((findBlockMoves brd (blocks.getD i default)).filterMap (fun bm =>
        if make_board (blocks.set i bm.1) ∈ visited then none
        else some (level + 1, bm.2, blocks.set i bm.1))).length ≤ 10 := by
    intro i _
    calc ((findBlockMoves brd (blocks.getD i default)).filterMap _).length
        ≤ (findBlockMoves brd (blocks.getD i default)).length :=
          List.length_filterMap_le _ _
      _ ≤ 10 := length_findBlockMoves _ _
  calc ((List.range blocks.length).map _).sum
      ≤ ((List.range blocks.length).map (fun _ => 10)).sum := by
        apply List.sum_le_sum
        intro i hi
        exact hb i hi
    _ = 10 * blocks.length := by
        rw [List.map_const']
        rw [List.sum_replicate]
        simp [Nat.smul_one_eq_cast]
        ring

lemma repositioning_refl (l : List block) : repositioning l l := by
  unfold repositioning
  induction l with
  | nil => exact List.Forall₂.nil
  | cons b bs ih => exact List.Forall₂.cons ⟨rfl, rfl, rfl, rfl⟩ ih

lemma repositioning_length {l1 l2 : List block} (h : repositioning l1 l2) :
    l1.length = l2.length :=
  (List.forall₂_iff_get.1 h).1

lemma repositioning_get {l1 l2 : List block} (h : repositioning l1 l2)
    {i : Nat} (h1 : i < l1.length) (h2 : i < l2.length) :
    sameSkeleton l1[i] l2[i] := by
  have := (List.forall₂_iff_get.1 h).2 i h1 h2
  simpa [List.get_eq_getElem] using this

lemma repositioning_step {init bl c : List block} (h : repositioning init bl)
    (hs : stepRel bl c) : repositioning init c := by
  obtain ⟨i, hi, bm, hbm, rfl⟩ := hs
  obtain ⟨-, -, -, -, hbe⟩ := findBlockMoves_move_eq hbm
  unfold repositioning at h ⊢
  rw [List.forall₂_iff_get] at h ⊢
  obtain ⟨hlen, hget⟩ := h
  refine ⟨by rw [hlen, List.length_set], ?_⟩
  intro j hj1 hj2
  rw [List.length_set] at hj2
  simp only [List.get_eq_getElem, List.getElem_set]
  by_cases hij : i = j
  · rw [if_pos hij]
    have hsk := hget j hj1 hj2
    simp only [List.get_eq_getElem] at hsk
    have hgd : bl.getD i default = bl[j] := by
      subst hij
      exact getD_eq_getElem hj2
    have hskel2 : sameSkeleton bl[j] bm.1 := by
      rw [← hgd]
      cases hdd : bm.2._direction <;>
        (rw [hdd] at hbe; rw [hbe]; exact ⟨rfl, rfl, rfl, rfl⟩)
    exact ⟨hsk.1.trans hskel2.1, hsk.2.1.trans hskel2.2.1,
      hsk.2.2.1.trans hskel2.2.2.1, hsk.2.2.2.trans hskel2.2.2.2⟩
  · rw [if_neg hij]
    have := hget j hj1 hj2
    simpa [List.get_eq_getElem] using this

lemma reachIn_valid_repos {init bl : List block} (hval : validConfig init) :
    ∀ {n : Nat}, reachIn n init bl → validConfig bl ∧ repositioning init bl := by
  intro n
  induction n generalizing bl with
  | zero => intro h; rw [h]; exact ⟨hval, repositioning_refl init⟩
  | succ m ih =>
    rintro ⟨c, hc, hs⟩
    obtain ⟨hcv, hcr⟩ := ih hc
    exact ⟨stepRel_preserves_valid hcv hs, repositioning_step hcr hs⟩

lemma findPrisoner_of_repositioning {init bl : List block}
    (hp : hasPrisoner init) (hr : repositioning init bl) :
    ∃ it, findPrisoner bl = some it := by
  obtain ⟨blk, hblk, hkind⟩ := hp
  have hex : ∃ x ∈ bl, (fun b => decide (b._kind = tileKind.Prisoner)) x = true := by
    obtain ⟨i, hi, rfl⟩ := List.mem_iff_getElem.1 hblk
    have hi2 : i < bl.length := by rw [← repositioning_length hr]; exact hi
    refine ⟨bl[i], List.getElem_mem hi2, ?_⟩
    have hsk := repositioning_get hr hi hi2
    rw [decide_eq_true_eq, ← hsk.2.2.1]
    exact hkind
  have := List.find?_isSome.2 hex
  cases hf : findPrisoner bl with
  | none => unfold findPrisoner at hf; rw [hf] at this; cases this
  | some it => exact ⟨it, rfl⟩

lemma block_ext {a b : block} (h1 : a._id = b._id) (h2 : a._y = b._y)
    (h3 : a._x = b._x) (h4 : a._isHorizontal = b._isHorizontal)
    (h5 : a._kind = b._kind) (h6 : a._length = b._length) : a = b := by
  cases a
  cases b
  simp_all

lemma topleft_in_bounds {blk : block} (hb : blockInBounds blk)
    (hl : 1 ≤ blk._length) :
    0 ≤ blk._y ∧ blk._y < 6 ∧ 0 ≤ blk._x ∧ blk._x < 6 := by
  cases hh : blk._isHorizontal with
  | true =>
    have hc : (blk._y, blk._x + 0) ∈ blockCells blk :=
      (mem_blockCells_horiz hh).2 ⟨0, le_refl 0, by omega, rfl⟩
    have := hb _ hc
    unfold inBoundsCell at this
    simp only [g_boardSize_eq] at this
    omega
  | false =>
    have hc : (blk._y + 0, blk._x) ∈ blockCells blk :=
      (mem_blockCells_vert hh).2 ⟨0, le_refl 0, by omega, rfl⟩
    have := hb _ hc
    unfold inBoundsCell at this
    simp only [g_boardSize_eq] at this
    omega

lemma board_mem_candidates {init bl : List block} (hr : repositioning init bl)
    (hv : validConfig bl) : make_board bl ∈ candidateBoards init := by
  unfold candidateBoards
  rw [Finset.mem_image]
  have hlen : init.length = bl.length := repositioning_length hr
  have hbnd : ∀ (j : Nat) (hj : j < bl.length),
      0 ≤ bl[j]._y ∧ bl[j]._y < 6 ∧ 0 ≤ bl[j]._x ∧ bl[j]._x < 6 := by
    intro j hj
    obtain ⟨hbI, -, hlp⟩ := hv.1 bl[j] (List.getElem_mem hj)
    exact topleft_in_bounds hbI hlp
  refine ⟨fun j => (⟨(bl.get ⟨(j : Nat), by omega⟩)._y.toNat, by
      have := hbnd j (by omega)
      simp only [List.get_eq_getElem, Fin.getElem_fin, Fin.val_mk]
      omega⟩,
    ⟨(bl.get ⟨(j : Nat), by omega⟩)._x.toNat, by
      have := hbnd j (by omega)
      simp only [List.get_eq_getElem, Fin.getElem_fin, Fin.val_mk]
      omega⟩), Finset.mem_univ _, ?_⟩
  congr 1
  unfold repositionAt
  apply List.ext_getElem
  · rw [List.length_ofFn]
    exact hlen
  · intro j hj1 hj2
    rw [List.getElem_ofFn]
    have hj0 : j < init.length := by rw [List.length_ofFn] at hj1; exact hj1
    have hsk := repositioning_get hr hj0 hj2
    apply block_ext
    · exact hsk.1
    · dsimp only
      have := hbnd j hj2
      simp only [List.get_eq_getElem, Fin.getElem_fin, Fin.val_mk]
      omega
    · dsimp only
      have := hbnd j hj2
      simp only [List.get_eq_getElem, Fin.getElem_fin, Fin.val_mk]
      omega
    · exact hsk.2.1
    · exact hsk.2.2.1
    · exact hsk.2.2.2

lemma visitedCard_insert {init : List block} {visited : List board} {b : board}
    (hb : b ∈ candidateBoards init) (hnv : b ∉ visited) :
    ((candidateBoards init).filter (fun x => x ∈ (b :: visited))).card =
      ((candidateBoards init).filter (fun x => x ∈ visited)).card + 1 := by
  have hset : (candidateBoards init).filter (fun x => x ∈ (b :: visited)) =
      insert b ((candidateBoards init).filter (fun x => x ∈ visited)) := by
    ext x
    simp only [Finset.mem_filter, Finset.mem_insert, List.mem_cons]
    constructor
    · rintro ⟨hx, rfl | hxv⟩
      · exact Or.inl rfl
      · exact Or.inr ⟨hx, hxv⟩
    · rintro (rfl | ⟨hx, hxv⟩)
      · exact ⟨hb, Or.inl rfl⟩
      · exact ⟨hx, Or.inr hxv⟩
  rw [hset, Finset.card_insert_of_not_mem (by
    rw [Finset.mem_filter]
    rintro ⟨-, hmem⟩
    exact hnv hmem)]

lemma visitedCard_lt {init : List block} {visited : List board} {b : board}
    (hb : b ∈ candidateBoards init) (hnv : b ∉ visited) :
    ((candidateBoards init).filter (fun x => x ∈ visited)).card <
      (candidateBoards init).card := by
  apply Finset.card_lt_card
  rw [Finset.ssubset_iff_of_subset (Finset.filter_subset _ _)]
  refine ⟨b, hb, ?_⟩
  rw [Finset.mem_filter]
  rintro ⟨-, hmem⟩
  exact hnv hmem

lemma solveLoop_no_outOfFuel (init : List block) (hpris : hasPrisoner init) :
    ∀ (fuel : Nat) (prev : List ((board × Int) × move)) (visited : List board)
      (queue : List (Int × move × List block)),
      (∀ e ∈ queue, validConfig e.2.2 ∧ repositioning init e.2.2) →
      loopMeasure init visited queue < fuel →
      solveLoop fuel prev visited queue ≠ SolveResult.OutOfFuel ∧
      solveLoop fuel prev visited queue ≠ SolveResult.NoPrisoner := by
  intro fuel
  induction fuel with
  | zero =>
    intro prev visited queue _ hmu
    exact absurd hmu (by omega)
  | succ n ih =>
    intro prev visited queue hq hmu
    cases queue with
    | nil =>
      constructor <;> (intro h; cases h)
    | cons e rest =>
      obtain ⟨level, mv, blocks⟩ := e
      obtain ⟨hvB, hrB⟩ := hq _ (List.mem_cons_self _ _)
      simp only [solveLoop]
      by_cases hv : make_board blocks ∈ visited
      · rw [if_pos hv]
        apply ih prev visited rest
          (fun e he => hq e (List.mem_cons_of_mem _ he))
        unfold loopMeasure at hmu ⊢
        simp only [List.length_cons] at hmu
        omega
      · rw [if_neg hv]
        obtain ⟨it, hit⟩ := findPrisoner_of_repositioning hpris hrB
        simp only [hit]
        by_cases hw : allClearOf (make_board blocks) it
        · rw [if_pos hw]
          constructor <;> (intro h; cases h)
        · rw [if_neg hw]
          apply ih
          · intro e he
            rcases List.mem_append.1 he with he1 | he2
            · exact hq e (List.mem_cons_of_mem _ he1)
            · obtain ⟨i, hi, bm, hbm, hnv, rfl⟩ := mem_expandChildren.1 he2
              have hs : stepRel blocks (blocks.set i bm.1) := ⟨i, hi, bm, hbm, rfl⟩
              exact ⟨stepRel_preserves_valid hvB hs, repositioning_step hrB hs⟩
          · have hbc := board_mem_candidates hrB hvB
            unfold loopMeasure at hmu ⊢
            rw [visitedCard_insert hbc hv]
            have hvlt := visitedCard_lt hbc hv
            have hchild := length_expandChildren
              (make_board blocks :: visited) (make_board blocks) blocks level
            have hblen : blocks.length = init.length :=
              (repositioning_length hrB).symm
            rw [List.length_append]
            simp only [List.length_cons] at hmu
            rw [hblen] at hchild
            set Ccard := (candidateBoards init).card with hC
            set v := ((candidateBoards init).filter (fun x => x ∈ visited)).card
              with hV
            have hstep : Ccard - v = (Ccard - (v + 1)) + 1 := by omega
            rw [hstep, add_mul, one_mul] at hmu
            omega

lemma candidateBoards_card_le (init : List block) :
    (candidateBoards init).card ≤ 36 ^ init.length := by
  unfold candidateBoards
  calc (Finset.image _ Finset.univ).card
      ≤ (Finset.univ : Finset (Fin init.length → Fin 6 × Fin 6)).card :=
        Finset.card_image_le
    _ = 36 ^ init.length := by
        rw [Finset.card_univ, Fintype.card_fun]
        simp

/-- C7: from any valid initial configuration with a prisoner, the search
terminates within an explicitly computable fuel bound, reporting either a
solution or `NoSolution` (a normal outcome); the fuel marker and the
missing-prisoner failure cannot occur. -/
theorem solve_terminates (init : List block) (hval : validConfig init)
    (hpris : hasPrisoner init) :
    (solveBoard (36 ^ init.length * (10 * init.length + 1) + 2) init =
        SolveResult.NoSolution) ∨
      (∃ path ms,
        solveBoard (36 ^ init.length * (10 * init.length + 1) + 2) init =
          SolveResult.Solved path ms) := by
  have hq : ∀ e ∈ ([(1, dummyMove, init)] :
      List (Int × move × List block)), validConfig e.2.2 ∧ repositioning init e.2.2 := by
    intro e he
    rcases List.mem_singleton.1 he with rfl
    exact ⟨hval, repositioning_refl init⟩
  have hmu : loopMeasure init [] [(1, dummyMove, init)] <
      36 ^ init.length * (10 * init.length + 1) + 2 := by
    unfold loopMeasure
    have h0 : ((candidateBoards init).filter (fun x => x ∈ ([] : List board))).card = 0 := by
      simp
    rw [h0]
    have hc := candidateBoards_card_le init
    have hmul : ((candidateBoards init).card - 0) * (10 * init.length + 1) ≤
        36 ^ init.length * (10 * init.length + 1) :=
      Nat.mul_le_mul_right _ (by omega)
    simp only [List.length_cons, List.length_nil]
    omega
  have h := solveLoop_no_outOfFuel init hpris
    (36 ^ init.length * (10 * init.length + 1) + 2)
    [((make_board init, 0), dummyMove)] [] [(1, dummyMove, init)] hq hmu
  unfold solveBoard
  cases hres : solveLoop (36 ^ init.length * (10 * init.length + 1) + 2)
      [((make_board init, 0), dummyMove)] [] [(1, dummyMove, init)] with
  | Solved path ms => exact Or.inr ⟨path, ms, rfl⟩
  | NoSolution => exact Or.inl rfl
  | NoPrisoner => exact absurd hres h.2
  | OutOfFuel => exact absurd hres h.1

/-- Witness for C7 on the one-block Scenario A configuration. -/
theorem solve_terminates_witness :
    validConfig [prisonerFree] ∧ hasPrisoner [prisonerFree] ∧
    ((solveBoard (36 ^ ([prisonerFree] : List block).length *
        (10 * ([prisonerFree] : List block).length + 1) + 2) [prisonerFree] =
          SolveResult.NoSolution) ∨
      (∃ path ms,
        solveBoard (36 ^ ([prisonerFree] : List block).length *
          (10 * ([prisonerFree] : List block).length + 1) + 2) [prisonerFree] =
            SolveResult.Solved path ms)) :=
  ⟨by decide, by decide, solve_terminates [prisonerFree] (by decide) (by decide)⟩

/-! ## Injectivity of the OCaml board hashes on in-grid repositionings -/

lemma hash_nat_inj {a y x y2 x2 : Nat} (ha : a < 2 ^ 8) (hy : y < 2 ^ 3)
    (hx : x < 2 ^ 3) (hy2 : y2 < 2 ^ 3) (hx2 : x2 < 2 ^ 3)
    (h : a ||| (y <<< 8 ||| x <<< 16) = a ||| (y2 <<< 8 ||| x2 <<< 16)) :
    y = y2 ∧ x = x2 := by
  constructor
  · apply Nat.eq_of_testBit_eq
    intro i
    by_cases hi : i < 3
    · have hcong := congrArg (fun n => Nat.testBit n (i + 8)) h
      simp only [Nat.testBit_lor, Nat.testBit_shiftLeft] at hcong
      have ha8 : Nat.testBit a (i + 8) = false :=
        Nat.testBit_lt_two_pow
          (lt_of_lt_of_le ha (Nat.pow_le_pow_right (by omega) (by omega)))
      have h8 : i + 8 ≥ 8 := by omega
      have h16 : ¬(i + 8 ≥ 16) := by omega
      simp only [ha8, h8, h16, Nat.add_sub_cancel, decide_eq_true_eq,
        decide_eq_false_iff_not, Bool.false_or, Bool.and_false, Bool.or_false,
        decide_True, decide_False, Bool.true_and, Bool.false_and] at hcong
      simpa using hcong
    · rw [Nat.testBit_lt_two_pow
          (lt_of_lt_of_le hy (Nat.pow_le_pow_right (by omega) (by omega))),
        Nat.testBit_lt_two_pow
          (lt_of_lt_of_le hy2 (Nat.pow_le_pow_right (by omega) (by omega)))]
  · apply Nat.eq_of_testBit_eq
    intro i
    by_cases hi : i < 3
    · have hcong := congrArg (fun n => Nat.testBit n (i + 16)) h
      simp only [Nat.testBit_lor, Nat.testBit_shiftLeft] at hcong
      have ha16 : Nat.testBit a (i + 16) = false :=
        Nat.testBit_lt_two_pow
          (lt_of_lt_of_le ha (Nat.pow_le_pow_right (by omega) (by omega)))
      have hy8 : Nat.testBit y (i + 16 - 8) = false :=
        Nat.testBit_lt_two_pow
          (lt_of_lt_of_le hy (Nat.pow_le_pow_right (by omega) (by omega)))
      have hy8' : Nat.testBit y2 (i + 16 - 8) = false :=
        Nat.testBit_lt_two_pow
          (lt_of_lt_of_le hy2 (Nat.pow_le_pow_right (by omega) (by omega)))
      have h8 : i + 16 ≥ 8 := by omega
      have h16 : i + 16 ≥ 16 := by omega
      simp only [ha16, hy8, hy8', h8, h16, Nat.add_sub_cancel, decide_eq_true_eq,
        decide_True, Bool.false_or, Bool.true_and, Bool.and_false] at hcong
      simpa using hcong
    · rw [Nat.testBit_lt_two_pow
          (lt_of_lt_of_le hx (Nat.pow_le_pow_right (by omega) (by omega))),
        Nat.testBit_lt_two_pow
          (lt_of_lt_of_le hx2 (Nat.pow_le_pow_right (by omega) (by omega)))]

lemma hash_as_nat (m yn xn : Nat) :
    Int.lor (↑m : Int)
        (Int.lor (((yn : Nat) : Int) <<< (8 : Int)) (((xn : Nat) : Int) <<< (16 : Int))) =
      ((m ||| (yn <<< 8 ||| xn <<< 16) : Nat) : Int) := by
  have h8 : ((8 : Int)) = ((8 : Nat) : Int) := rfl
  have h16 : ((16 : Int)) = ((16 : Nat) : Int) := rfl
  rw [h8, h16, Int.shiftLeft_coe_nat, Int.shiftLeft_coe_nat]
  rfl

lemma hash_block_inj {a b : block} (hsk : sameSkeleton a b)
    (hida : 0 ≤ a._id) (hida2 : a._id < 256)
    (hya : 0 ≤ a._y) (hya2 : a._y < 8) (hxa : 0 ≤ a._x) (hxa2 : a._x < 8)
    (hyb : 0 ≤ b._y) (hyb2 : b._y < 8) (hxb : 0 ≤ b._x) (hxb2 : b._x < 8)
    (h : hash_block a = hash_block b) : a = b := by
  unfold hash_block at h
  rw [← hsk.1] at h
  rw [show a._id = ((a._id.toNat : Nat) : Int) from by omega,
    show a._y = ((a._y.toNat : Nat) : Int) from by omega,
    show a._x = ((a._x.toNat : Nat) : Int) from by omega,
    show b._y = ((b._y.toNat : Nat) : Int) from by omega,
    show b._x = ((b._x.toNat : Nat) : Int) from by omega] at h
  rw [hash_as_nat, hash_as_nat] at h
  have hnat := Nat.cast_inj.1 h
  have h256 : (2 : Nat) ^ 8 = 256 := by norm_num
  have h8 : (2 : Nat) ^ 3 = 8 := by norm_num
  have hinj := hash_nat_inj (by omega) (by omega) (by omega) (by omega) (by omega) hnat
  exact block_ext hsk.1 (by omega) (by omega) hsk.2.1 hsk.2.2.1 hsk.2.2.2

lemma sameSkeleton_symm {a b : block} (h : sameSkeleton a b) : sameSkeleton b a :=
  ⟨h.1.symm, h.2.1.symm, h.2.2.1.symm, h.2.2.2.symm⟩

lemma sameSkeleton_trans {a b c : block} (h1 : sameSkeleton a b)
    (h2 : sameSkeleton b c) : sameSkeleton a c :=
  ⟨h1.1.trans h2.1, h1.2.1.trans h2.2.1, h1.2.2.1.trans h2.2.2.1,
    h1.2.2.2.trans h2.2.2.2⟩

/-- On valid repositionings of a fixed initial list with well-formed ids,
`make_board` is injective: equal boards (occupancy plus hash list) come from
equal block lists. -/
lemma make_board_inj {init l1 l2 : List block} (hids : idsValid init)
    (h1 : repositioning init l1) (h2 : repositioning init l2)
    (hv1 : validConfig l1) (hv2 : validConfig l2)
    (hb : make_board l1 = make_board l2) : l1 = l2 := by
  rw [make_board_eq, make_board_eq] at hb
  have hh : (l1.map hash_block).reverse = (l2.map hash_block).reverse :=
    congrArg board._hashes hb
  have hmaps : l1.map hash_block = l2.map hash_block :=
    List.reverse_injective hh
  have hl1 : init.length = l1.length := repositioning_length h1
  have hl2 : init.length = l2.length := repositioning_length h2
  apply List.ext_getElem (by omega)
  intro j hj1 hj2
  have hjh : hash_block l1[j] = hash_block l2[j] := by
    have e1 : (l1.map hash_block)[j]? = some (hash_block l1[j]) := by
      rw [List.getElem?_map, List.getElem?_eq_getElem hj1]
      rfl
    have e2 : (l2.map hash_block)[j]? = some (hash_block l2[j]) := by
      rw [List.getElem?_map, List.getElem?_eq_getElem hj2]
      rfl
    rw [hmaps] at e1
    rw [e2] at e1
    exact (Option.some.inj e1).symm
  have hsk1 := repositioning_get h1 (by omega) hj1
  have hsk2 := repositioning_get h2 (by omega) hj2
  have hsk := sameSkeleton_trans (sameSkeleton_symm hsk1) hsk2
  have hid := hids.2 init[j] (List.getElem_mem (by omega))
  obtain ⟨hbI1, -, hlp1⟩ := hv1.1 l1[j] (List.getElem_mem hj1)
  obtain ⟨hbI2, -, hlp2⟩ := hv2.1 l2[j] (List.getElem_mem hj2)
  have ht1 := topleft_in_bounds hbI1 hlp1
  have ht2 := topleft_in_bounds hbI2 hlp2
  exact hash_block_inj hsk (by rw [← hsk1.1]; exact hid.1)
    (by rw [← hsk1.1]; exact hid.2) (by omega) (by omega) (by omega) (by omega)
    (by omega) (by omega) (by omega) (by omega) hjh

/-! ## Backtracking lemmas -/

lemma hashtblFind_of_mem :
    ∀ {prev : List ((board × Int) × move)},
      (prev.map (fun en => en.1)).Nodup →
      ∀ {key : board × Int} {mv0 : move}, (key, mv0) ∈ prev →
      hashtblFind prev key = some mv0 := by
  intro prev
  induction prev with
  | nil => intro _ _ _ h; cases h
  | cons en tl ih =>
    intro hnd key mv0 hmem
    rw [List.map_cons, List.nodup_cons] at hnd
    unfold hashtblFind
    rw [List.find?_cons]
    by_cases hk : en.1 = key
    · rw [show (decide (en.1 = key)) = true from decide_eq_true hk]
      rcases List.mem_cons.1 hmem with rfl | htl
      · rfl
      · exfalso
        apply hnd.1
        rw [hk]
        exact List.mem_map.2 ⟨(key, mv0), htl, rfl⟩
    · rw [show (decide (en.1 = key)) = false from decide_eq_false hk]
      rcases List.mem_cons.1 hmem with rfl | htl
      · exact absurd rfl hk
      · exact ih hnd.2 htl

lemma repositioning_ids {init p : List block} (h : repositioning init p) :
    p.map (fun b => b._id) = init.map (fun b => b._id) := by
  apply List.ext_getElem
  · rw [List.length_map, List.length_map, repositioning_length h]
  · intro j hj1 hj2
    rw [List.length_map] at hj1 hj2
    rw [List.getElem_map, List.getElem_map]
    exact (repositioning_get h hj2 hj1).1.symm

lemma ids_nodup_of_repositioning {init p : List block} (hids : idsValid init)
    (h : repositioning init p) : (p.map (fun b => b._id)).Nodup := by
  rw [repositioning_ids h]
  exact hids.1

lemma id_getElem_ne {p : List block} (hnd : (p.map (fun b => b._id)).Nodup)
    {i j : Nat} (hi : i < p.length) (hj : j < p.length) (hne : i ≠ j) :
    p[j]._id ≠ p[i]._id := by
  intro hc
  have hmi : i < (p.map (fun b => b._id)).length := by rw [List.length_map]; exact hi
  have hmj : j < (p.map (fun b => b._id)).length := by rw [List.length_map]; exact hj
  have : (p.map (fun b => b._id))[j] = (p.map (fun b => b._id))[i] := by
    rw [List.getElem_map, List.getElem_map]
    exact hc
  have := (hnd.getElem_inj_iff).1 this
  omega

lemma applyMove_generated {p : List block} {i : Nat} {bm : block × move}
    (hnd : (p.map (fun b => b._id)).Nodup) (hi : i < p.length)
    (hbm : bm ∈ findBlockMoves (make_board p) (p.getD i default)) :
    applyMove p bm.2 = p.set i bm.1 := by
  obtain ⟨hid, hs1, -, -, hbe⟩ := findBlockMoves_move_eq hbm
  rw [getD_eq_getElem hi] at hid hbe
  unfold applyMove
  apply List.ext_getElem
  · rw [List.length_map, List.length_set]
  · intro j hj1 hj2
    rw [List.length_map] at hj1
    rw [List.getElem_map, List.getElem_set]
    by_cases hij : i = j
    · subst hij
      rw [if_pos rfl]
      have hcond : p[i]._id = bm.2._blockId := hid.symm
      rw [if_pos hcond]
      rw [hbe]
    · rw [if_neg hij]
      rw [if_neg (show ¬(p[j]._id = bm.2._blockId) from
        fun hcc => id_getElem_ne hnd hi hj1 hij (hcc.trans hid))]

lemma backStep_generated {p : List block} {i : Nat} {bm : block × move}
    (hnd : (p.map (fun b => b._id)).Nodup) (hi : i < p.length)
    (hbm : bm ∈ findBlockMoves (make_board p) (p.getD i default)) :
    backStepBlocks (p.set i bm.1) bm.2 = p := by
  obtain ⟨hid, hs1, -, -, hbe⟩ := findBlockMoves_move_eq hbm
  rw [getD_eq_getElem hi] at hid hbe
  unfold backStepBlocks
  apply List.ext_getElem
  · rw [List.length_map, List.length_set]
  · intro j hj1 hj2
    rw [List.length_map, List.length_set] at hj1
    rw [List.getElem_map, List.getElem_set]
    by_cases hij : i = j
    · subst hij
      rw [if_pos rfl]
      have hbid : bm.1._id = bm.2._blockId := by
        rw [hid]
        cases hdd : bm.2._direction <;> (rw [hdd] at hbe; rw [hbe])
      rw [if_pos hbid]
      rw [hbe]
      cases hdd : bm.2._direction <;>
        (apply block_ext <;> (first | (dsimp only; omega) | rfl))
    · rw [if_neg hij]
      rw [if_neg (show ¬(p[j]._id = bm.2._blockId) from
        fun hcc => id_getElem_ne hnd hi hj1 hij (hcc.trans hid))]

lemma chainFrom_length :
    ∀ (l : List (List block)) (ms : List move), chainFrom l ms →
      l.length = ms.length + 1
  | [_], [], _ => rfl
  | [], _, h => h.elim
  | [_], _ :: _, h => h.elim
  | _ :: _ :: _, [], h => h.elim
  | _ :: s2 :: tl, _ :: ms, h => by
    have := chainFrom_length (s2 :: tl) ms h.2.2
    simp only [List.length_cons] at this ⊢
    omega

lemma chainFrom_append_step :
    ∀ (l : List (List block)) (ms : List move) (p c : List block) (m : move),
      chainFrom (l ++ [p]) ms → applyMove p m = c → stepRel p c →
      chainFrom ((l ++ [p]) ++ [c]) (ms ++ [m]) := by
  intro l
  induction l with
  | nil =>
    intro ms p c m h ha hs
    cases ms with
    | nil => exact ⟨ha, hs, trivial⟩
    | cons m2 ms2 => exact h.elim
  | cons s l2 ih =>
    intro ms p c m h ha hs
    obtain ⟨x, tl, hxt⟩ : ∃ x tl, l2 ++ [p] = x :: tl := by
      cases l2 <;> exact ⟨_, _, rfl⟩
    cases ms with
    | nil =>
      rw [List.cons_append, hxt] at h
      exact h.elim
    | cons m2 ms2 =>
      rw [List.cons_append, hxt] at h
      obtain ⟨ha2, hs2, hrest⟩ := h
      rw [← hxt] at hrest
      have hih := ih ms2 p c m hrest ha hs
      show chainFrom ((s :: (l2 ++ [p])) ++ [c]) ((m2 :: ms2) ++ [m])
      rw [List.cons_append, List.cons_append]
      have hxt2 : (l2 ++ [p]) ++ [c] = x :: (tl ++ [c]) := by
        rw [hxt]
        rfl
      rw [hxt2]
      refine ⟨ha2, hs2, ?_⟩
      rw [← hxt2]
      exact hih

lemma backtrack_correct (init : List block) (hval0 : validConfig init)
    (hids : idsValid init) :
    ∀ (k : Nat) (prev : List ((board × Int) × move)),
      prevChain init prev → (prev.map (fun en => en.1)).Nodup →
      ∀ (bl : List block) (ℓ : Int) (mv0 : move) (rest0 : List (List block))
        (mvs : List move),
        ((make_board bl, ℓ), mv0) ∈ prev →
        validConfig bl → repositioning init bl → ℓ.toNat ≤ k →
        ∃ pre ms,
          backtrack prev k (make_board bl) bl ℓ (bl :: rest0) mvs =
            (pre ++ bl :: rest0, ms ++ mvs) ∧
          chainFrom (pre ++ [bl]) ms ∧
          (pre ++ [bl]).head? = some init ∧
          ms.length = (ℓ - 1).toNat := by
  intro k
  induction k with
  | zero =>
    intro prev hchain hnd bl ℓ mv0 rest0 mvs hmem hv hr hk
    rcases hchain _ hmem with ⟨hb0, hl0, -⟩ | ⟨bl2, hb2, hv2, hr2, hinner⟩
    · dsimp only at hb0 hl0
      have hbl : bl = init :=
        make_board_inj hids hr (repositioning_refl init) hv hval0 hb0
      exact ⟨[], [], rfl, trivial, by rw [List.nil_append, hbl]; rfl, by
        simp only [List.length_nil]; omega⟩
    · exfalso
      rcases hinner with ⟨-, -, hl1⟩ | ⟨hl2, -⟩
      · dsimp only at hl1; omega
      · dsimp only at hl2; omega
  | succ n ih =>
    intro prev hchain hnd bl ℓ mv0 rest0 mvs hmem hv hr hk
    have hfind : hashtblFind prev (make_board bl, ℓ) = some mv0 :=
      hashtblFind_of_mem hnd hmem
    rcases hchain _ hmem with ⟨hb0, hl0, hm0⟩ | ⟨bl2, hb2, hv2, hr2, hinner⟩
    · dsimp only at hb0 hl0 hm0
      have hbl : bl = init :=
        make_board_inj hids hr (repositioning_refl init) hv hval0 hb0
      refine ⟨[], [], ?_, trivial, by rw [List.nil_append, hbl]; rfl, by
        simp only [List.length_nil]; omega⟩
      show backtrack prev (n + 1) (make_board bl) bl ℓ (bl :: rest0) mvs = _
      simp only [backtrack, hfind, hm0]
      rw [if_pos (show dummyMove._blockId = -1 from rfl)]
      rfl
    · dsimp only at hb2
      have hbl2 : bl = bl2 :=
        make_board_inj hids hr hr2 hv hv2 hb2
      subst hbl2
      rcases hinner with ⟨hmd, hbli, hl1⟩ | ⟨hl2, p, i, bm, hvp, hrp,
          ⟨mv2, hpkey⟩, hip, hbm, hblset, hmveq⟩
      · dsimp only at hmd hl1
        refine ⟨[], [], ?_, trivial, by rw [List.nil_append, hbli]; rfl, by
          simp only [List.length_nil]; omega⟩
        show backtrack prev (n + 1) (make_board bl) bl ℓ (bl :: rest0) mvs = _
        simp only [backtrack, hfind, hmd]
        rw [if_pos (show dummyMove._blockId = -1 from rfl)]
        rfl
      · dsimp only at hl2 hblset hmveq
        have hnodp : (p.map (fun b => b._id)).Nodup :=
          ids_nodup_of_repositioning hids hrp
        have hleninit : init.length = p.length := repositioning_length hrp
        have hii : i < init.length := by omega
        have hidp : init[i]._id = p[i]._id := (repositioning_get hrp hii hip).1
        have hnn := (hids.2 init[i] (List.getElem_mem hii)).1
        have hidmv : mv0._blockId = p[i]._id := by
          rw [hmveq, (findBlockMoves_move_eq hbm).1, getD_eq_getElem hip]
        have hne : ¬(mv0._blockId = -1) := by omega
        have hback : backStepBlocks bl mv0 = p := by
          rw [hblset, hmveq]
          exact backStep_generated hnodp hip hbm
        obtain ⟨pre', ms', hres, hch', hh', hlen'⟩ :=
          ih prev hchain hnd p (ℓ - 1) mv2 (bl :: rest0) (mv0 :: mvs) hpkey
            hvp hrp (by omega)
        refine ⟨pre' ++ [p], ms' ++ [mv0], ?_, ?_, ?_, ?_⟩
        · show backtrack prev (n + 1) (make_board bl) bl ℓ (bl :: rest0) mvs = _
          simp only [backtrack, hfind]
          rw [if_neg hne]
          simp only [hback]
          rw [hres]
          simp [List.append_assoc]
        · refine chainFrom_append_step pre' ms' p bl mv0 hch' ?_ ?_
          · rw [hmveq, hblset]
            exact applyMove_generated hnodp hip hbm
          · exact ⟨i, hip, bm, hbm, hblset⟩
        · cases hpp : pre' ++ [p] with
          | nil => simp [hpp] at hh'
          | cons a t =>
            rw [hpp] at hh'
            rw [hpp, List.cons_append, List.head?_cons] at *
            exact hh'
        · simp only [List.length_append, List.length_cons, List.length_nil,
            hlen']
          omega

lemma prevEntryChain_mono {init : List block}
    {prev : List ((board × Int) × move)} {en0 en : (board × Int) × move}
    (h : prevEntryChain init prev en) : prevEntryChain init (en0 :: prev) en := by
  unfold prevEntryChain at h ⊢
  rcases h with h | ⟨bl, hb, hv, hr, h | ⟨hl2, p, i, bm, hvp, hrp, ⟨mv2, hkey⟩, hrest⟩⟩
  · exact Or.inl h
  · exact Or.inr ⟨bl, hb, hv, hr, Or.inl h⟩
  · exact Or.inr ⟨bl, hb, hv, hr, Or.inr ⟨hl2, p, i, bm, hvp, hrp,
      ⟨mv2, List.mem_cons_of_mem _ hkey⟩, hrest⟩⟩

lemma entryProv_mono {init : List block}
    {prev : List ((board × Int) × move)} {en0 : (board × Int) × move}
    {e : Int × move × List block}
    (h : entryProv init prev e) : entryProv init (en0 :: prev) e := by
  unfold entryProv at h ⊢
  rcases h with h | ⟨hl2, p, i, bm, hvp, hrp, ⟨mv2, hkey⟩, hrest⟩
  · exact Or.inl h
  · exact Or.inr ⟨hl2, p, i, bm, hvp, hrp,
      ⟨mv2, List.mem_cons_of_mem _ hkey⟩, hrest⟩

lemma pairwise_head_min {f : Int × move × List block}
    {rest : List (Int × move × List block)}
    (h : List.Pairwise (fun a b : Int × move × List block => a.1 ≤ b.1)
      (f :: rest)) :
    ∀ e ∈ rest, f.1 ≤ e.1 :=
  (List.pairwise_cons.1 h).1

lemma inv_near_visited {init : List block} (hval0 : validConfig init)
    (hids : idsValid init)
    {prev : List ((board × Int) × move)} {visited : List board}
    {f : Int × move × List block} {rest : List (Int × move × List block)}
    (inv : LoopInv init prev visited (f :: rest)) :
    ∀ (n : Nat) (bl2 : List block), reachIn n init bl2 →
      (n : Int) < f.1 - 1 → make_board bl2 ∈ visited := by
  intro n
  induction n with
  | zero =>
    intro bl2 hr hlt
    have hbl2 : bl2 = init := hr
    subst hbl2
    rcases inv.initCovered with hvis | hque
    · exact hvis
    · rcases List.mem_cons.1 hque with heq | hrest
      · exfalso
        have : f.1 = 1 := by rw [← heq]
        omega
      · exfalso
        have := pairwise_head_min inv.lvlSorted _ hrest
        simp only at this
        omega
  | succ n ih =>
    intro bl2 hr hlt
    obtain ⟨c, hrc, hstep⟩ := hr
    have hcvr := reachIn_valid_repos hval0 hrc
    have hcvis : make_board c ∈ visited := ih c hrc (by push_cast at hlt ⊢; omega)
    obtain ⟨ℓc, blc, hbc, hvbc, hrbc, hl1c, hreach, hwin, hopt, hclos, hhead⟩ :=
      inv.vok _ hcvis
    have hbceq : blc = c :=
      make_board_inj hids hrbc hcvr.2 hvbc hcvr.1 hbc.symm
    rcases hclos bl2 (by rw [hbceq]; exact hstep) with hv2 | ⟨e, he, he2, hlev⟩
    · exact hv2
    · exfalso
      have hℓ : ℓc - 1 ≤ (n : Int) := hopt n c hcvr.2 hcvr.1 rfl hrc
      have hmin : f.1 ≤ e.1 := by
        rcases List.mem_cons.1 he with rfl | hrest
        · exact le_refl _
        · exact pairwise_head_min inv.lvlSorted _ hrest
      push_cast at hlt
      omega

lemma loopInv_pop_visited {init : List block}
    {prev : List ((board × Int) × move)} {visited : List board}
    {f : Int × move × List block} {rest : List (Int × move × List block)}
    (inv : LoopInv init prev visited (f :: rest))
    (hv : make_board f.2.2 ∈ visited) :
    LoopInv init prev visited rest := by
  refine ⟨fun e he => inv.qok e (List.mem_cons_of_mem _ he),
    fun e he => inv.qprov e (List.mem_cons_of_mem _ he),
    (List.pairwise_cons.1 inv.lvlSorted).2, ?_, ?_, inv.pchain, inv.pkv,
    inv.pkeys, ?_⟩
  · intro f2 hf2 e he
    have hf2m : f2 ∈ rest := List.mem_of_mem_head? hf2
    have h1 : e.1 ≤ f.1 + 1 := inv.span f rfl e (List.mem_cons_of_mem _ he)
    have h2 : f.1 ≤ f2.1 := pairwise_head_min inv.lvlSorted _ hf2m
    omega
  · intro b hb
    obtain ⟨ℓb, bl, h1, h2, h3, h4, h5, h6, hopt, hclos, hhead⟩ := inv.vok b hb
    refine ⟨ℓb, bl, h1, h2, h3, h4, h5, h6, hopt, ?_, ?_⟩
    · intro c hc
      rcases hclos c hc with hcv | ⟨e, he, he2, hle⟩
      · exact Or.inl hcv
      · rcases List.mem_cons.1 he with rfl | hrest
        · exact Or.inl (he2 ▸ hv)
        · exact Or.inr ⟨e, hrest, he2, hle⟩
    · intro f2 hf2
      have hf2m : f2 ∈ rest := List.mem_of_mem_head? hf2
      have h1 : ℓb ≤ f.1 := hhead f rfl
      have h2 : f.1 ≤ f2.1 := pairwise_head_min inv.lvlSorted _ hf2m
      omega
  · rcases inv.initCovered with h | h
    · exact Or.inl h
    · rcases List.mem_cons.1 h with heq | hrest
      · refine Or.inl ?_
        rw [← heq] at hv
        exact hv
      · exact Or.inr hrest

lemma loopInv_expand {init : List block} (hval0 : validConfig init)
    (hids : idsValid init)
    {prev : List ((board × Int) × move)} {visited : List board}
    {level : Int} {mv : move} {blocks : List block}
    {rest : List (Int × move × List block)}
    (inv : LoopInv init prev visited ((level, mv, blocks) :: rest))
    (hnv : make_board blocks ∉ visited)
    (hwin : isWinningState blocks = false) :
    LoopInv init (((make_board blocks, level), mv) :: prev)
      (make_board blocks :: visited)
      (rest ++ expandChildren (make_board blocks :: visited)
        (make_board blocks) blocks level) := by
  obtain ⟨hvalb, hreposb, hlev1, hreach⟩ := inv.qok _ (List.mem_cons_self _ _)
  have hprovh := inv.qprov _ (List.mem_cons_self _ _)
  have hchild_lvl : ∀ e ∈ expandChildren (make_board blocks :: visited)
      (make_board blocks) blocks level, e.1 = level + 1 := by
    intro e he
    obtain ⟨i, hi, bm, hbm, hnvis, rfl⟩ := mem_expandChildren.1 he
    rfl
  have hub : ∀ e ∈ rest ++ expandChildren (make_board blocks :: visited)
      (make_board blocks) blocks level, e.1 ≤ level + 1 := by
    intro e he
    rcases List.mem_append.1 he with h | h
    · exact inv.span _ rfl e (List.mem_cons_of_mem _ h)
    · rw [hchild_lvl e h]
  have hlb : ∀ f2 ∈ (rest ++ expandChildren (make_board blocks :: visited)
      (make_board blocks) blocks level).head?, level ≤ f2.1 := by
    cases hr : rest with
    | nil =>
      intro f2 hf2
      rw [List.nil_append] at hf2
      have := hchild_lvl f2 (List.mem_of_mem_head? hf2)
      omega
    | cons r rest2 =>
      intro f2 hf2
      rw [List.cons_append] at hf2
      simp only [List.head?_cons, Option.mem_def, Option.some.injEq] at hf2
      subst hf2
      exact pairwise_head_min inv.lvlSorted _ (by rw [hr]; exact List.mem_cons_self _ _)
  refine ⟨?_, ?_, ?_, ?_, ?_, ?_, ?_, ?_, ?_⟩
  · intro e he
    rcases List.mem_append.1 he with h | h
    · exact inv.qok e (List.mem_cons_of_mem _ h)
    · obtain ⟨i, hi, bm, hbm, hnvis, rfl⟩ := mem_expandChildren.1 h
      have hstep : stepRel blocks (blocks.set i bm.1) := ⟨i, hi, bm, hbm, rfl⟩
      refine ⟨stepRel_preserves_valid hvalb hstep,
        repositioning_step hreposb hstep, by dsimp only; omega, ?_⟩
      dsimp only
      rw [show ((level + 1 : Int) - 1).toNat = (level - 1).toNat + 1 from by omega]
      exact ⟨blocks, hreach, hstep⟩
  · intro e he
    rcases List.mem_append.1 he with h | h
    · exact entryProv_mono (inv.qprov e (List.mem_cons_of_mem _ h))
    · obtain ⟨i, hi, bm, hbm, hnvis, rfl⟩ := mem_expandChildren.1 h
      refine Or.inr ⟨by dsimp only; omega, blocks, i, bm, hvalb, hreposb,
        ⟨mv, ?_⟩, hi, hbm, rfl, rfl⟩
      dsimp only
      rw [show level + 1 - 1 = level from by ring]
      exact List.mem_cons_self _ _
  · rw [List.pairwise_append]
    refine ⟨(List.pairwise_cons.1 inv.lvlSorted).2, ?_, ?_⟩
    · refine List.pairwise_of_forall_mem_list ?_
      intro a ha b hb
      rw [hchild_lvl a ha, hchild_lvl b hb]
    · intro a ha b hb
      have h1 : a.1 ≤ level + 1 := inv.span _ rfl a (List.mem_cons_of_mem _ ha)
      rw [hchild_lvl b hb]
      exact h1
  · intro f2 hf2 e he
    have h1 := hub e he
    have h2 := hlb f2 hf2
    omega
  · intro b hb
    rcases List.mem_cons.1 hb with rfl | hb
    · refine ⟨level, blocks, rfl, hvalb, hreposb, hlev1, hreach, hwin,
        ?_, ?_, ?_⟩
      · intro n bl2 hr2 hv2 hb2 hreach2
        by_contra hcon
        push_neg at hcon
        have hvis := inv_near_visited hval0 hids inv n bl2 hreach2
          (by dsimp only; omega)
        rw [hb2] at hvis
        exact hnv hvis
      · intro c hc
        by_cases hcv : make_board c ∈ make_board blocks :: visited
        · exact Or.inl hcv
        · obtain ⟨i, hi, bm, hbm, rfl⟩ := hc
          refine Or.inr ⟨(level + 1, bm.2, blocks.set i bm.1),
            List.mem_append_right _ (mem_expandChildren.2
              ⟨i, hi, bm, hbm, hcv, rfl⟩), rfl, by omega⟩
      · intro f2 hf2
        exact hlb f2 hf2
    · obtain ⟨ℓb, bl, h1, h2, h3, h4, h5, h6, hopt, hclos, hhead⟩ := inv.vok b hb
      refine ⟨ℓb, bl, h1, h2, h3, h4, h5, h6, hopt, ?_, ?_⟩
      · intro c hc
        rcases hclos c hc with hcv | ⟨e, he, he2, hle⟩
        · exact Or.inl (List.mem_cons_of_mem _ hcv)
        · rcases List.mem_cons.1 he with rfl | hrest
          · refine Or.inl ?_
            have : blocks = c := he2
            rw [← this]
            exact List.mem_cons_self _ _
          · exact Or.inr ⟨e, List.mem_append_left _ hrest, he2, hle⟩
      · intro f2 hf2
        have h1 : ℓb ≤ level := hhead _ rfl
        have h2 := hlb f2 hf2
        omega
  · intro en hen
    rcases List.mem_cons.1 hen with rfl | hen
    · rcases hprovh with heq | ⟨hl2, p, i, bm, hvp, hrp, ⟨mv2, hkey⟩, hip, hbm,
        hset, hmveq⟩
      · have hl : level = 1 := congrArg Prod.fst heq
        have hm : mv = dummyMove := congrArg (fun e => e.2.1) heq
        have hbl : blocks = init := congrArg (fun e => e.2.2) heq
        refine Or.inr ⟨init, by dsimp only; rw [hbl], hval0,
          repositioning_refl init, Or.inl ⟨hm, rfl, hl⟩⟩
      · dsimp only at hl2 hset hmveq
        refine Or.inr ⟨blocks, rfl, hvalb, hreposb, Or.inr ⟨hl2, p, i, bm,
          hvp, hrp, ⟨mv2, ?_⟩, hip, hbm, hset, hmveq⟩⟩
        dsimp only
        exact List.mem_cons_of_mem _ hkey
    · exact prevEntryChain_mono (inv.pchain en hen)
  · intro en hen
    rcases List.mem_cons.1 hen with rfl | hen
    · exact Or.inl (List.mem_cons_self _ _)
    · rcases inv.pkv en hen with h | h
      · exact Or.inl (List.mem_cons_of_mem _ h)
      · exact Or.inr h
  · rw [List.map_cons, List.nodup_cons]
    refine ⟨?_, inv.pkeys⟩
    intro hmem
    obtain ⟨en, henp, heq⟩ := List.mem_map.1 hmem
    rcases inv.pkv en henp with h | h
    · rw [heq] at h
      exact hnv h
    · rw [heq] at h
      dsimp only at h
      omega
  · rcases inv.initCovered with h | h
    · exact Or.inl (List.mem_cons_of_mem _ h)
    · rcases List.mem_cons.1 h with heq | hrest
      · refine Or.inl ?_
        have hbl : init = blocks := congrArg (fun e => e.2.2) heq
        rw [← hbl]
        exact List.mem_cons_self _ _
      · exact Or.inr (List.mem_append_left _ hrest)

lemma loopInv_init {init : List block} (hval0 : validConfig init) :
    LoopInv init [((make_board init, 0), dummyMove)] []
      [(1, dummyMove, init)] := by
  refine ⟨?_, ?_, ?_, ?_, ?_, ?_, ?_, ?_, ?_⟩
  · intro e he
    rcases List.mem_singleton.1 he with rfl
    exact ⟨hval0, repositioning_refl init, le_refl _, rfl⟩
  · intro e he
    rcases List.mem_singleton.1 he with rfl
    exact Or.inl rfl
  · simp
  · intro f2 hf2 e he
    simp only [List.head?_cons, Option.mem_def, Option.some.injEq] at hf2
    subst hf2
    rcases List.mem_singleton.1 he with rfl
    dsimp only
    omega
  · intro b hb
    cases hb
  · intro en hen
    rcases List.mem_singleton.1 hen with rfl
    exact Or.inl ⟨rfl, rfl, rfl⟩
  · intro en hen
    rcases List.mem_singleton.1 hen with rfl
    exact Or.inr rfl
  · simp
  · exact Or.inr (List.mem_cons_self _ _)

lemma prevChain_snoc {init : List block} (hval0 : validConfig init)
    {prev : List ((board × Int) × move)} {level : Int} {mv : move}
    {blocks : List block}
    (hch : prevChain init prev) (hvalb : validConfig blocks)
    (hreposb : repositioning init blocks)
    (hprovh : entryProv init prev (level, mv, blocks)) :
    prevChain init (((make_board blocks, level), mv) :: prev) := by
  intro en hen
  rcases List.mem_cons.1 hen with rfl | hen
  · rcases hprovh with heq | ⟨hl2, p, i, bm, hvp, hrp, ⟨mv2, hkey⟩, hip, hbm,
      hset, hmveq⟩
    · have hl : level = 1 := congrArg Prod.fst heq
      have hm : mv = dummyMove := congrArg (fun e => e.2.1) heq
      have hbl : blocks = init := congrArg (fun e => e.2.2) heq
      exact Or.inr ⟨init, by dsimp only; rw [hbl], hval0,
        repositioning_refl init, Or.inl ⟨hm, rfl, hl⟩⟩
    · dsimp only at hl2 hset hmveq
      refine Or.inr ⟨blocks, rfl, hvalb, hreposb, Or.inr ⟨hl2, p, i, bm,
        hvp, hrp, ⟨mv2, ?_⟩, hip, hbm, hset, hmveq⟩⟩
      dsimp only
      exact List.mem_cons_of_mem _ hkey
  · exact prevEntryChain_mono (hch en hen)

lemma pkeys_snoc {prev : List ((board × Int) × move)} {visited : List board}
    {level : Int} {mv : move} {blocks : List block}
    (hpkv : ∀ en ∈ prev, en.1.1 ∈ visited ∨ en.1.2 = 0)
    (hpkeys : (prev.map (fun en => en.1)).Nodup)
    (hnv : make_board blocks ∉ visited) (hlev1 : 1 ≤ level) :
    (((((make_board blocks, level), mv) : (board × Int) × move) :: prev).map
      (fun en => en.1)).Nodup := by
  rw [List.map_cons, List.nodup_cons]
  refine ⟨?_, hpkeys⟩
  intro hmem
  obtain ⟨en, henp, heq⟩ := List.mem_map.1 hmem
  rcases hpkv en henp with h | h
  · rw [heq] at h
    exact hnv h
  · rw [heq] at h
    dsimp only at h
    omega

lemma solveLoop_spec {init : List block} (hval0 : validConfig init)
    (hids : idsValid init) :
    ∀ (fuel : Nat) (prev : List ((board × Int) × move)) (visited : List board)
      (queue : List (Int × move × List block)),
      LoopInv init prev visited queue →
      ∀ (path : List (List block)) (ms : List move),
        solveLoop fuel prev visited queue = SolveResult.Solved path ms →
        chainFrom path ms ∧ path.head? = some init ∧
        (∃ last, path.getLast? = some last ∧ isWinningState last = true) ∧
        (∀ (n2 : Nat) (bl2 : List block), reachIn n2 init bl2 →
          isWinningState bl2 = true → ms.length ≤ n2) := by
  intro fuel
  induction fuel with
  | zero =>
    intro prev visited queue inv path ms h
    simp only [solveLoop] at h
    exact SolveResult.noConfusion h
  | succ n ih =>
    intro prev visited queue inv path ms h
    cases queue with
    | nil =>
      simp only [solveLoop] at h
      exact SolveResult.noConfusion h
    | cons f rest =>
      obtain ⟨level, mv, blocks⟩ := f
      simp only [solveLoop] at h
      by_cases hmem : make_board blocks ∈ visited
      · rw [if_pos hmem] at h
        exact ih prev visited rest (loopInv_pop_visited inv hmem) path ms h
      · rw [if_neg hmem] at h
        cases hp : findPrisoner blocks with
        | none =>
          simp only [hp] at h
          exact SolveResult.noConfusion h
        | some it =>
          simp only [hp] at h
          cases hwin : allClearOf (make_board blocks) it with
          | true =>
            rw [hwin, if_pos rfl] at h
            obtain ⟨hvalb, hreposb, hlev1, hreach⟩ :=
              inv.qok _ (List.mem_cons_self _ _)
            have hprovh := inv.qprov _ (List.mem_cons_self _ _)
            have hchain' := prevChain_snoc hval0 inv.pchain hvalb hreposb hprovh
            have hnd' := @pkeys_snoc prev visited level mv blocks inv.pkv inv.pkeys hmem hlev1
            obtain ⟨pre, ms0, hres, hch, hhd, hlen⟩ :=
              backtrack_correct init hval0 hids (level + 1).toNat
                (((make_board blocks, level), mv) :: prev) hchain' hnd'
                blocks level mv [] [] (List.mem_cons_self _ _) hvalb hreposb
                (by omega)
            injection h with hpath hms
            rw [hres] at hpath hms
            dsimp only at hpath hms
            rw [List.append_nil] at hms
            subst hpath
            subst hms
            refine ⟨hch, hhd, ⟨blocks, List.getLast?_concat _, ?_⟩, ?_⟩
            · unfold isWinningState
              rw [hp]
              exact hwin
            · intro n2 bl2 hr2 hw2
              by_contra hcon
              push_neg at hcon
              have hbr := reachIn_valid_repos hval0 hr2
              have hvis := inv_near_visited hval0 hids inv n2 bl2 hr2
                (by dsimp only; omega)
              obtain ⟨ℓb, bl, hb1, hb2, hb3, -, -, hwfalse, -, -, -⟩ :=
                inv.vok _ hvis
              have hbl : bl = bl2 :=
                make_board_inj hids hb3 hbr.2 hb2 hbr.1 hb1.symm
              rw [hbl, hw2] at hwfalse
              exact Bool.noConfusion hwfalse
          | false =>
            rw [hwin] at h
            rw [if_neg (by simp)] at h
            have hwinb : isWinningState blocks = false := by
              unfold isWinningState
              rw [hp]
              exact hwin
            exact ih _ _ _ (loopInv_expand hval0 hids inv hmem hwinb) path ms h

/-- C4: if `solveBoard` returns a solution path, the snapshots replay the
returned moves: the path starts at the initial block list, each consecutive
pair of snapshots is joined by applying the corresponding move (which is a
legal generated single-block slide changing exactly that block's position),
and the final snapshot satisfies the win predicate. -/
theorem solution_path_replays_moves (fuel : Nat) (init : List block)
    (path : List (List block)) (ms : List move)
    (hval : validConfig init) (hids : idsValid init)
    (h : solveBoard fuel init = SolveResult.Solved path ms) :
    chainFrom path ms ∧ path.head? = some init ∧
    ∃ last, path.getLast? = some last ∧ isWinningState last = true := by
  unfold solveBoard at h
  have hs := solveLoop_spec hval hids fuel _ _ _ (loopInv_init hval) path ms h
  exact ⟨hs.1, hs.2.1, hs.2.2.1⟩

theorem solution_path_replays_moves_witness :
    validConfig [prisonerC, blockerC] ∧ idsValid [prisonerC, blockerC] ∧
    solveBoard 50 [prisonerC, blockerC] = SolveResult.Solved
      [[prisonerC, blockerC], [prisonerC, { blockerC with _y := 0 }]]
      [{ _blockId := 1, _steps := 1, _direction := direction.Up }] ∧
    (chainFrom [[prisonerC, blockerC], [prisonerC, { blockerC with _y := 0 }]]
        [{ _blockId := 1, _steps := 1, _direction := direction.Up }] ∧
      [[prisonerC, blockerC],
        [prisonerC, { blockerC with _y := 0 }]].head? = some [prisonerC, blockerC] ∧
      ∃ last, [[prisonerC, blockerC],
        [prisonerC, { blockerC with _y := 0 }]].getLast? = some last ∧
        isWinningState last = true) :=
  ⟨by decide, by decide, by decide,
    solution_path_replays_moves 50 [prisonerC, blockerC]
      [[prisonerC, blockerC], [prisonerC, { blockerC with _y := 0 }]]
      [{ _blockId := 1, _steps := 1, _direction := direction.Up }]
      (by decide) (by decide) (by decide)⟩

/-- C1: the returned solution is minimal: no sequence of fewer legal
single-block slides (a slide of any distance counting as one move) reaches a
winning state from the initial configuration. -/
theorem solution_is_minimal (fuel : Nat) (init : List block)
    (path : List (List block)) (ms : List move)
    (hval : validConfig init) (hids : idsValid init)
    (h : solveBoard fuel init = SolveResult.Solved path ms) :
    ∀ (n : Nat) (bl2 : List block), reachIn n init bl2 →
      isWinningState bl2 = true → ms.length ≤ n := by
  unfold solveBoard at h
  exact (solveLoop_spec hval hids fuel _ _ _ (loopInv_init hval) path ms h).2.2.2

theorem solution_is_minimal_witness :
    validConfig [prisonerC, blockerC] ∧ idsValid [prisonerC, blockerC] ∧
    solveBoard 50 [prisonerC, blockerC] = SolveResult.Solved
      [[prisonerC, blockerC], [prisonerC, { blockerC with _y := 0 }]]
      [{ _blockId := 1, _steps := 1, _direction := direction.Up }] ∧
    reachIn 1 [prisonerC, blockerC] [prisonerC, { blockerC with _y := 0 }] ∧
    isWinningState [prisonerC, { blockerC with _y := 0 }] = true ∧
    [({ _blockId := 1, _steps := 1, _direction := direction.Up } : move)].length ≤ 1 :=
  ⟨by decide, by decide, by decide,
    ⟨[prisonerC, blockerC], rfl,
      ⟨1, by decide, ({ blockerC with _y := 0 },
        { _blockId := 1, _steps := 1, _direction := direction.Up }), by decide,
        by decide⟩⟩,
    by decide,
    solution_is_minimal 50 [prisonerC, blockerC]
      [[prisonerC, blockerC], [prisonerC, { blockerC with _y := 0 }]]
      [{ _blockId := 1, _steps := 1, _direction := direction.Up }]
      (by decide) (by decide) (by decide) 1
      [prisonerC, { blockerC with _y := 0 }]
      ⟨[prisonerC, blockerC], rfl,
        ⟨1, by decide, ({ blockerC with _y := 0 },
          { _blockId := 1, _steps := 1, _direction := direction.Up }), by decide,
          by decide⟩⟩
      (by decide)⟩
